import Mathlib

/-!
Verification of the straky-graph board/graph core: a shallow embedding of
`src/straky/board.py` and `src/straky/graph.py`.

A board configuration is a flat row-major list of cell values
(`0` = Empty, `1` = ColorA, `2` = ColorB), mirroring the Python tuples.
Python tuples of equal length compare lexicographically element-wise,
which coincides with the `LinearOrder (List Nat)` instance
(`List.Lex (· < ·)`) used throughout.
-/

namespace Straky

/-- A board configuration: flat row-major list of cells, as the Python tuples. -/
abbrev Config := List Nat

/-- Builds the flat list `[f 0 0, f 0 1, …, f 0 (N-1), f 1 0, …, f (N-1) (N-1)]`,
the common shape of the four generator-expression transforms in `board.py`
(`tuple(… for outer in range(N) for inner in range(N))`, with a downward inner
or outer loop encoded by `N - 1 - i`). -/
def gridGen (N : Nat) (f : Nat → Nat → Nat) : Config :=
  (List.range N).flatMap fun a => (List.range N).map (f a)

/-- Source: `Board.rotate_board_left`: `tuple(s[col*N+row] for row in range(N)
for col in range(N-1, -1, -1))`; inner position `i` corresponds to `col = N-1-i`. -/
def rotate_board_left (N : Nat) (s : Config) : Config :=
  gridGen N fun row i => s.getD ((N - 1 - i) * N + row) 0

/-- Source: `Board.rotate_board_right`: `tuple(s[col*N+row] for row in range(N-1, -1, -1)
for col in range(N))`; outer position `i` corresponds to `row = N-1-i`. -/
def rotate_board_right (N : Nat) (s : Config) : Config :=
  gridGen N fun i col => s.getD (col * N + (N - 1 - i)) 0

/-- Source: `Board.reflect_board_vertically`: `tuple(s[col*N+row] for col in range(N)
for row in range(N-1, -1, -1))`; inner position `i` corresponds to `row = N-1-i`. -/
def reflect_board_vertically (N : Nat) (s : Config) : Config :=
  gridGen N fun col i => s.getD (col * N + (N - 1 - i)) 0

/-- Source: `Board.reflect_board_horizontally`: `tuple(s[col*N+row] for col in range(N-1, -1, -1)
for row in range(N))`; outer position `i` corresponds to `col = N-1-i`. -/
def reflect_board_horizontally (N : Nat) (s : Config) : Config :=
  gridGen N fun i row => s.getD ((N - 1 - i) * N + row) 0

/-- The eight dihedral images of `s` in the order of the claims: identity, the
three iterated left rotations, the mirror, and the mirror followed by the three
rotations.  `Board.generate_equivalent_states` collects exactly this set. -/
def orbitList (N : Nat) (s : Config) : List Config :=
  let r1 := rotate_board_left N s
  let r2 := rotate_board_left N r1
  let r3 := rotate_board_left N r2
  let m0 := reflect_board_vertically N s
  let m1 := rotate_board_left N m0
  let m2 := rotate_board_left N m1
  let m3 := rotate_board_left N m2
  [s, r1, r2, r3, m0, m1, m2, m3]

/-- Python `set.add` on a duplicate-free list: winners are collected as a set. -/
def set_add (acc : List Nat) (v : Nat) : List Nat :=
  if v ∈ acc then acc else acc ++ [v]

/-- The row scan of `Board.get_winners` for one `row`: take `v = s[row*N]`; skip
if `v == 0`; add `v` when `s[i] == v` for all `i` in `range(row*N+1, (row+1)*N)`
(the for-else loop). -/
def row_check (N : Nat) (s : Config) (row : Nat) : Option Nat :=
  let v := s.getD (row * N) 0
  if v = 0 then Option.none
  else if (List.range' (row * N + 1) (N - 1)).all (fun i => s.getD i 0 == v) then some v
  else Option.none

/-- The column scan of `Board.get_winners` for one `col`: take `v = s[col]`;
skip if `v == 0`; add `v` when `s[col + i*N] == v` for all `i` in `range(1, N)`. -/
def col_check (N : Nat) (s : Config) (col : Nat) : Option Nat :=
  let v := s.getD col 0
  if v = 0 then Option.none
  else if (List.range' 1 (N - 1)).all (fun i => s.getD (col + i * N) 0 == v) then some v
  else Option.none

/-- Source: `Board.get_winners`: scan all rows, then all columns, collecting winning
colors into a set (modelled as a duplicate-free list). -/
def get_winners (N : Nat) (s : Config) : List Nat :=
  let winners := (List.range N).foldl (fun acc row =>
    match row_check N s row with
    | some v => set_add acc v
    | Option.none => acc) []
  (List.range N).foldl (fun acc col =>
    match col_check N s col with
    | some v => set_add acc v
    | Option.none => acc) winners

/-- Source: `Board.generate_equivalent_states`: collect the mirror and the rotations of
`s` and of its mirror into a set (`dedup`) and return them sorted ascending
(Python `sorted` on tuples = lexicographic order on lists). -/
def generate_equivalent_states (N : Nat) (s : Config) : List Config :=
  ((orbitList N s).dedup).insertionSort (· ≤ ·)

/-- The canonical representative: `eqs[0]`, the first element of the sorted
equivalence list, as used by `GameGraph.prepare_normalized_states`. -/
def canonical (N : Nat) (s : Config) : Config :=
  (generate_equivalent_states N s).headD []

/-- The tuple built by `Board.place` (after its assert):
`tuple(c if (i != N*row+col) else color for i, c in enumerate(s))`. -/
def place_tuple (N : Nat) (s : Config) (col row color : Nat) : Config :=
  s.enum.map fun ic => if ic.1 ≠ N * row + col then ic.2 else color

/-- Source: `Board.place`: asserts `s[N*row+col] == 0` (modelled as `Option.none` on
failure) and otherwise returns the tuple with that one cell set to `color`. -/
def place (N : Nat) (s : Config) (col row color : Nat) : Option Config :=
  if s.getD (N * row + col) 0 = 0 then some (place_tuple N s col row color)
  else Option.none

/-- Source: `Board.flip_row`: Python `-c % 3` on naturals is `(3 - c % 3) % 3`. -/
def flip_row (N : Nat) (s : Config) (row : Nat) : Config :=
  s.enum.map fun ic => if ic.1 / N = row then (3 - ic.2 % 3) % 3 else ic.2

/-- Source: `Board.flip_column`. -/
def flip_column (N : Nat) (s : Config) (col : Nat) : Config :=
  s.enum.map fun ic => if ic.1 % N = col then (3 - ic.2 % 3) % 3 else ic.2

/-- Python slice `s[a:b]` for `0 ≤ a ≤ b` (the only slices used here). -/
def pyslice (s : Config) (a b : Nat) : Config := (s.drop a).take (b - a)

/-- Source: `Board.insert_left`: `s[:N*row] + (color,) + s[N*row:N*(row+1)-1] + s[N*(row+1):]`. -/
def insert_left (N : Nat) (s : Config) (row color : Nat) : Config :=
  pyslice s 0 (N * row) ++
    color :: pyslice s (N * row) (N * (row + 1) - 1) ++ s.drop (N * (row + 1))

/-- Source: `Board.insert_right`: `s[:N*row] + s[N*row+1:N*(row+1)] + (color,) + s[N*(row+1):]`. -/
def insert_right (N : Nat) (s : Config) (row color : Nat) : Config :=
  pyslice s 0 (N * row) ++
    pyslice s (N * row + 1) (N * (row + 1)) ++ color :: s.drop (N * (row + 1))

/-- Source: `Board.insert_top`: per-index: keep cells outside column `col`; in the
column, the top cell becomes `color` and the rest shift down (`s[i-N]`). -/
def insert_top (N : Nat) (s : Config) (col color : Nat) : Config :=
  s.enum.map fun ic =>
    if ic.1 % N ≠ col then ic.2
    else if ic.1 < N then color
    else s.getD (ic.1 - N) 0

/-- Source: `Board.insert_bottom`: in the column, the bottom cell (`i ≥ N*(N-1)`)
becomes `color` and the rest shift up (`s[i+N]`). -/
def insert_bottom (N : Nat) (s : Config) (col color : Nat) : Config :=
  s.enum.map fun ic =>
    if ic.1 % N ≠ col then ic.2
    else if N * (N - 1) ≤ ic.1 then color
    else s.getD (ic.1 + N) 0

/-- Move tags with their arguments, as the `(move, *args)` tuples of the source. -/
inductive Move where
  | p (col row color : Nat)
  | fr (row : Nat)
  | fc (col : Nat)
  | il (row color : Nat)
  | ir (row color : Nat)
  | it (col color : Nat)
  | ib (col color : Nat)
deriving DecidableEq

/-- Source: `Board.generate_possible_moves` with the default color set `{1, 2}`
(iterated as `[1, 2]`) and all 7 move kinds.  The kind iteration order is
determinized to the literal order `p, fr, fc, il, ir, it, ib` (the Python
frozenset iteration order is unspecified).  For `p`, cells that are not empty
are skipped, so `place`'s assert always passes and the result is its tuple. -/
def generate_possible_moves (N : Nat) (s : Config) : List (Move × Config) :=
  ((List.range N).flatMap fun col => (List.range N).flatMap fun row =>
    [1, 2].flatMap fun color =>
      if s.getD (N * row + col) 0 ≠ 0 then []
      else [(Move.p col row color, place_tuple N s col row color)])
  ++ ((List.range N).map fun i => (Move.fr i, flip_row N s i))
  ++ ((List.range N).map fun i => (Move.fc i, flip_column N s i))
  ++ ((List.range N).flatMap fun i => [1, 2].map fun color =>
        (Move.il i color, insert_left N s i color))
  ++ ((List.range N).flatMap fun i => [1, 2].map fun color =>
        (Move.ir i color, insert_right N s i color))
  ++ ((List.range N).flatMap fun i => [1, 2].map fun color =>
        (Move.it i color, insert_top N s i color))
  ++ ((List.range N).flatMap fun i => [1, 2].map fun color =>
        (Move.ib i color, insert_bottom N s i color))

/-- Source: `itertools.product(range(3), repeat=n)` in enumeration order: lexicographic,
leftmost position slowest. -/
def allTuples : Nat → List Config
  | 0 => [[]]
  | n + 1 => [0, 1, 2].flatMap fun d => (allTuples n).map fun t => d :: t

/-- The canonicalization map (`GameGraph.NormalizedStates`), modelled as an
association list; Python dict assignment prepends (lookup sees the most recent
binding first). -/
abbrev StateMap := List (Config × Config)

def lookupState : StateMap → Config → Option Config
  | [], _ => Option.none
  | (k, v) :: m, x => if x = k then some v else lookupState m x

/-- One enumeration step of `GameGraph.prepare_normalized_states`: skip a
configuration already present in the map; otherwise assign every state of its
equivalence list to `eqs[0]`.  The second component records the configurations
that were actually processed (took the else branch). -/
def prepare_step (N : Nat) (p : StateMap × List Config) (s : Config) :
    StateMap × List Config :=
  if (lookupState p.1 s).isSome then p
  else
    ((generate_equivalent_states N s).foldl
       (fun acc t => (t, canonical N s) :: acc) p.1,
     p.2 ++ [s])

/-- Source: `GameGraph.prepare_normalized_states` over the full `3^(N²)` enumeration,
together with the list of processed (non-skipped) configurations. -/
def prepare_pair (N : Nat) : StateMap × List Config :=
  (allTuples (N * N)).foldl (prepare_step N) ([], [])

def prepare_normalized_states (N : Nat) : StateMap := (prepare_pair N).1

def processedStates (N : Nat) : List Config := (prepare_pair N).2

/-- Invariant of the precompute fold after consuming the enumeration prefix
`P`: keys are exactly the orbits of the prefix, every binding maps to the
canonical representative, and the processed list is exactly the self-canonical
members of the prefix. -/
def PrepInv (N : Nat) (P : List Config) (m : StateMap) (ps : List Config) : Prop :=
  (∀ k, (lookupState m k).isSome = true ↔ ∃ t ∈ P, k ∈ orbitList N t) ∧
    (∀ k v, lookupState m k = some v → v = canonical N k) ∧
    ps = P.filter fun t => decide (canonical N t = t)

/-- The division loop of `number_to_base` (`while n: digits.append(n % b);
n //= b`), little-endian, with structural fuel so that it evaluates; fuel `n`
is always sufficient for the bases `b ≥ 2` in use. -/
def digitsLoop (b : Nat) : Nat → Nat → List Nat
  | _, 0 => []
  | 0, _ + 1 => []
  | fuel + 1, n + 1 => (n + 1) % b :: digitsLoop b fuel ((n + 1) / b)

/-- Source: `number_to_base(n, b, length)`: little-endian digit loop, zero-padding up
to `length`, then reversal.  (For `b ≤ 1` the Python loop would not terminate;
the source only uses `b = 3`.) -/
def number_to_base (n b len : Nat) : List Nat :=
  let digits := digitsLoop b n n
  (digits ++ List.replicate (len - digits.length) 0).reverse

/-- Source: `int("".join(str(c) for c in k), 3)`: the cells of `k` read as a big-endian
base-3 numeral (all saved states have cells < 3, so each `str(c)` is one base-3
digit). -/
def state_to_int (k : Config) : Nat := Nat.ofDigits 3 k.reverse

/-- One decimal digit as a character (`str` of a digit; only used for d < 10). -/
def digit_char (d : Nat) : Char :=
  if d = 0 then '0' else if d = 1 then '1' else if d = 2 then '2'
  else if d = 3 then '3' else if d = 4 then '4' else if d = 5 then '5'
  else if d = 6 then '6' else if d = 7 then '7' else if d = 8 then '8' else '9'

/-- Inverse of `digit_char`: `Option.none` on non-digit characters. -/
def char_digit (c : Char) : Option Nat :=
  if c = '0' then some 0 else if c = '1' then some 1 else if c = '2' then some 2
  else if c = '3' then some 3 else if c = '4' then some 4 else if c = '5' then some 5
  else if c = '6' then some 6 else if c = '7' then some 7 else if c = '8' then some 8
  else if c = '9' then some 9 else Option.none

/-- Python `str(n)` for a natural number: decimal digits, most significant
first; `str(0) = "0"`. -/
def natToChars (n : Nat) : List Char :=
  if n = 0 then ['0'] else ((digitsLoop 10 n n).reverse.map digit_char)

/-- Python `int(s)` restricted to plain decimal digit strings (the only form
the serializer emits); empty or non-digit input fails (`ValueError`). -/
def parseNatAux : List Char → Nat → Option Nat
  | [], acc => some acc
  | c :: cs, acc =>
    match char_digit c with
    | some d => parseNatAux cs (acc * 10 + d)
    | Option.none => Option.none

def parseNat (l : List Char) : Option Nat :=
  if l = [] then Option.none else parseNatAux l 0

/-- Python `line.split(" ")`: split on every single space character. -/
def splitOnSpace : List Char → List (List Char)
  | [] => [[]]
  | c :: cs =>
    if c = ' ' then [] :: splitOnSpace cs
    else
      match splitOnSpace cs with
      | [] => [[c]]
      | h :: t => (c :: h) :: t

/-- Source: `k, v = line.split(" ")` followed by `int(k)`, `int(v)`: `Option.none`
models the `ValueError` on a line that does not split into exactly two
integer tokens. -/
def parseLine (l : List Char) : Option (Nat × Nat) :=
  match splitOnSpace l with
  | [a, b] =>
    match parseNat a, parseNat b with
    | some x, some y => some (x, y)
    | _, _ => Option.none
  | _ => Option.none

/-- The text line written by `save_normalized_states` for one mapping
(`"{} {}".format(...)`), newline terminator omitted (Python's `int` ignores
the trailing whitespace when loading). -/
def lineOf (kv : Config × Config) : List Char :=
  natToChars (state_to_int kv.1) ++ ' ' :: natToChars (state_to_int kv.2)

/-- Source: `GameGraph.save_normalized_states`: one line per non-self-canonical
mapping (`if k == v: continue`). -/
def save_normalized_states (m : StateMap) : List (List Char) :=
  (m.filter fun kv => decide (kv.1 ≠ kv.2)).map lineOf

/-- Source: `GameGraph.load_normalized_states`, line by line; any unparseable line
aborts the load with an error. -/
def load_loop (N : Nat) : List (List Char) → StateMap → Except String StateMap
  | [], m => Except.ok m
  | l :: ls, m =>
    match parseLine l with
    | some kv =>
      load_loop N ls ((number_to_base kv.1 3 (N * N), number_to_base kv.2 3 (N * N)) :: m)
    | Option.none => Except.error "could not parse line"

def load_normalized_states (N : Nat) (lines : List (List Char)) : Except String StateMap :=
  load_loop N lines []

/-- Source: `GameGraph.normalize_state`: identity for states absent from the map. -/
def normalize_state (m : StateMap) (s : Config) : Config :=
  match lookupState m s with
  | some v => v
  | Option.none => s

/-- Entry-wise invariant of the precompute map: every stored pair has a
well-formed key and maps it to its canonical representative. -/
def PrepEntries (N : Nat) (m : StateMap) : Prop :=
  ∀ kv ∈ m, (kv.1.length = N * N ∧ ∀ c ∈ kv.1, c < 3) ∧
    (kv.2.length = N * N ∧ ∀ c ∈ kv.2, c < 3) ∧ kv.2 = canonical N kv.1

/-- Source: `Board.empty_state`: all-Empty board. -/
def empty_state (N : Nat) : Config := List.replicate (N * N) 0

/-- A well-formed configuration: N² cells over `{0, 1, 2}`. -/
def wfConfig (N : Nat) (s : Config) : Prop := s.length = N * N ∧ ∀ c ∈ s, c < 3

instance wfConfig_decidable (N : Nat) (s : Config) : Decidable (wfConfig N s) :=
  inferInstanceAs (Decidable (s.length = N * N ∧ ∀ c ∈ s, c < 3))

/-- Source: `GameGraph.Graph`: canonical state → either the no-outgoing-moves marker
(Python `None`, for terminal states) or the move → successor map. -/
abbrev GraphMap := List (Config × Option (List (Move × Config)))

/-- Source: `GameGraph.Terminals`: terminal state → winner set. -/
abbrev TermMap := List (Config × List Nat)

/-- Association-list lookup (Python dict lookup, most recent binding first). -/
def lookupG {β : Type} : List (Config × β) → Config → Option β
  | [], _ => Option.none
  | (k, v) :: m, x => if x = k then some v else lookupG m x

/-- Python inner-dict assignment `Graph[s][move] = s_next`: overwrite the
binding for `move` if present, append it otherwise. -/
def assoc_set_move : List (Move × Config) → Move → Config → List (Move × Config)
  | [], mv, t => [(mv, t)]
  | (m1, t1) :: es, mv, t =>
    if m1 = mv then (mv, t) :: es else (m1, t1) :: assoc_set_move es mv t

/-- Update the graph entry of key `s` in place with one more edge.  The
`Option.none` (terminal-marker) case is unreachable during the traversal —
Python would raise a `TypeError` there — and is kept as a no-op to stay
total. -/
def graph_set_move : GraphMap → Config → Move → Config → GraphMap
  | [], _, _, _ => []
  | (k, es) :: g, s, mv, t =>
    if k = s then
      (k, match es with
        | some l => some (assoc_set_move l mv t)
        | Option.none => Option.none) :: g
    else (k, es) :: graph_set_move g s mv t

/-- The body of the successor loop in `GameGraph.build_graph`:
normalize the successor, lazily create `Graph[s]`, record the edge, and add
the successor to the frontier when it is not yet a graph key (set-add). -/
def expand_step (nm : StateMap) (s : Config) (acc : GraphMap × List Config)
    (mvt : Move × Config) : GraphMap × List Config :=
  let sn := normalize_state nm mvt.2
  let g1 := if (lookupG acc.1 s).isSome then acc.1 else (s, some []) :: acc.1
  let g2 := graph_set_move g1 s mvt.1 sn
  let fr := if (lookupG g2 sn).isSome then acc.2
    else if sn ∈ acc.2 then acc.2 else acc.2 ++ [sn]
  (g2, fr)

/-- The frontier loop of `GameGraph.build_graph`, with explicit fuel (the
source's `while frontier:` loop; the set pop is determinized as taking the
head of the frontier list, and set-add appends if absent).  The third result
component records the expansion order (each popped state). -/
def build_graph_loop (N : Nat) (nm : StateMap) :
    Nat → GraphMap → TermMap → List Config → List Config →
    Option (GraphMap × TermMap × List Config)
  | 0, _, _, _, _ => Option.none
  | fuel + 1, g, t, trace, frontier =>
    match frontier with
    | [] => some (g, t, trace)
    | s :: fr =>
      let w := get_winners N s
      if w = [] then
        let gfr := (generate_possible_moves N s).foldl (expand_step nm s) (g, fr)
        build_graph_loop N nm fuel gfr.1 t (trace ++ [s]) gfr.2
      else
        build_graph_loop N nm fuel ((s, Option.none) :: g) ((s, w) :: t)
          (trace ++ [s]) fr

/-- Source: `GameGraph.build_graph` from the empty board. -/
def build_graph (N : Nat) (nm : StateMap) (fuel : Nat) :
    Option (GraphMap × TermMap × List Config) :=
  build_graph_loop N nm fuel [] [] [] [empty_state N]

/-- Invariant of the frontier loop: the frontier has no duplicates and only
holds well-formed states that are not yet graph keys; graph keys are
well-formed and duplicate-free; every terminal entry holds its state's
non-empty winner set and is marked `None` in the graph. -/
def LoopInv (N : Nat) (g : GraphMap) (t : TermMap) (frontier : List Config) : Prop :=
  frontier.Nodup ∧
    (∀ x ∈ frontier, wfConfig N x ∧ lookupG g x = Option.none) ∧
    (∀ k ∈ g.map Prod.fst, wfConfig N k) ∧
    (g.map Prod.fst).Nodup ∧
    ∀ kv ∈ t, kv.2 = get_winners N kv.1 ∧ kv.2 ≠ [] ∧ wfConfig N kv.1 ∧
      lookupG g kv.1 = some Option.none

/-- Normal form of `gridGen` as a single `map` over `List.range (N*N)`. -/
theorem gridGen_eq_map (N : Nat) (f : Nat → Nat → Nat) :
    gridGen N f = (List.range (N * N)).map fun i => f (i / N) (i % N) := by
  suffices H : ∀ A, (List.range A).flatMap (fun a => (List.range N).map (f a)) =
      (List.range (A * N)).map fun i => f (i / N) (i % N) from H N
  intro A
  induction A with
  | zero => simp
  | succ A ih =>
    rw [List.range_succ, Nat.succ_mul, List.range_add, List.map_append]
    rw [List.flatMap_append, ih]
    congr 1
    simp only [List.flatMap_cons, List.flatMap_nil, List.append_nil, List.map_map]
    apply List.map_congr_left
    intro j hj
    have hjN : j < N := List.mem_range.mp hj
    have hN : 0 < N := Nat.lt_of_le_of_lt (Nat.zero_le j) hjN
    have h1 : (A * N + j) / N = A := by
      rw [Nat.mul_comm A N, Nat.mul_add_div hN, Nat.div_eq_of_lt hjN, Nat.add_zero]
    have h2 : (A * N + j) % N = j := by
      rw [Nat.mul_comm A N, Nat.mul_add_mod, Nat.mod_eq_of_lt hjN]
    simp [Function.comp, h1, h2]

theorem length_gridGen (N : Nat) (f : Nat → Nat → Nat) : (gridGen N f).length = N * N := by
  rw [gridGen_eq_map, List.length_map, List.length_range]

theorem getD_gridGen (N : Nat) (f : Nat → Nat → Nat) {a b : Nat} (ha : a < N) (hb : b < N) :
    (gridGen N f).getD (a * N + b) 0 = f a b := by
  have hlt : a * N + b < N * N := by
    calc a * N + b < a * N + N := Nat.add_lt_add_left hb _
    _ = (a + 1) * N := by ring
    _ ≤ N * N := Nat.mul_le_mul_right N ha
  rw [gridGen_eq_map]
  rw [List.getD_eq_getElem _ _ (by simpa using hlt)]
  rw [List.getElem_map, List.getElem_range]
  have h1 : (a * N + b) / N = a := by
    have hN : 0 < N := Nat.lt_of_le_of_lt (Nat.zero_le b) hb
    rw [Nat.mul_comm a N, Nat.mul_add_div hN, Nat.div_eq_of_lt hb, Nat.add_zero]
  have h2 : (a * N + b) % N = b := by
    rw [Nat.add_comm, Nat.add_mul_mod_self_right, Nat.mod_eq_of_lt hb]
  rw [h1, h2]

/-- Every cell of a `gridGen` board is `f a b` for some in-range `a`, `b`. -/
theorem mem_gridGen (N : Nat) (f : Nat → Nat → Nat) {x : Nat} (hx : x ∈ gridGen N f) :
    ∃ a b, a < N ∧ b < N ∧ x = f a b := by
  rw [gridGen_eq_map] at hx
  rcases List.mem_map.mp hx with ⟨i, hi, rfl⟩
  have hiN : i < N * N := List.mem_range.mp hi
  have hN : 0 < N := by
    rcases Nat.eq_zero_or_pos N with h | h
    · subst h; simp at hiN
    · exact h
  exact ⟨i / N, i % N, Nat.div_lt_of_lt_mul (by omega), Nat.mod_lt _ hN, rfl⟩

/-- Two boards of shape `N × N` agree if they agree cellwise. -/
theorem grid_ext {N : Nat} {u v : Config} (hu : u.length = N * N) (hv : v.length = N * N)
    (h : ∀ a b, a < N → b < N → u.getD (a * N + b) 0 = v.getD (a * N + b) 0) : u = v := by
  apply List.ext_getElem (by rw [hu, hv])
  intro i h1 h2
  have hiN : i < N * N := by rw [hu] at h1; exact h1
  have hN : 0 < N := by
    rcases Nat.eq_zero_or_pos N with h0 | h0
    · subst h0; simp at hiN
    · exact h0
  have ha : i / N < N := Nat.div_lt_of_lt_mul hiN
  have hb : i % N < N := Nat.mod_lt _ hN
  have hi : i / N * N + i % N = i := by
    rw [Nat.mul_comm]
    exact Nat.div_add_mod i N
  have key := h (i / N) (i % N) ha hb
  rw [hi] at key
  rwa [List.getD_eq_getElem u 0 h1, List.getD_eq_getElem v 0 h2] at key

theorem getD_rotate_board_left (N : Nat) (s : Config) {a b : Nat} (ha : a < N) (hb : b < N) :
    (rotate_board_left N s).getD (a * N + b) 0 = s.getD ((N - 1 - b) * N + a) 0 :=
  getD_gridGen N _ ha hb

theorem getD_rotate_board_right (N : Nat) (s : Config) {a b : Nat} (ha : a < N) (hb : b < N) :
    (rotate_board_right N s).getD (a * N + b) 0 = s.getD (b * N + (N - 1 - a)) 0 :=
  getD_gridGen N _ ha hb

theorem getD_reflect_board_vertically (N : Nat) (s : Config) {a b : Nat}
    (ha : a < N) (hb : b < N) :
    (reflect_board_vertically N s).getD (a * N + b) 0 = s.getD (a * N + (N - 1 - b)) 0 :=
  getD_gridGen N _ ha hb

theorem getD_reflect_board_horizontally (N : Nat) (s : Config) {a b : Nat}
    (ha : a < N) (hb : b < N) :
    (reflect_board_horizontally N s).getD (a * N + b) 0 = s.getD ((N - 1 - a) * N + b) 0 :=
  getD_gridGen N _ ha hb

theorem length_rotate_board_left (N : Nat) (s : Config) :
    (rotate_board_left N s).length = N * N := length_gridGen N _

theorem length_rotate_board_right (N : Nat) (s : Config) :
    (rotate_board_right N s).length = N * N := length_gridGen N _

theorem length_reflect_board_vertically (N : Nat) (s : Config) :
    (reflect_board_vertically N s).length = N * N := length_gridGen N _

theorem length_reflect_board_horizontally (N : Nat) (s : Config) :
    (reflect_board_horizontally N s).length = N * N := length_gridGen N _

theorem rotate_right_rotate_left (N : Nat) (s : Config) (h : s.length = N * N) :
    rotate_board_right N (rotate_board_left N s) = s := by
  apply grid_ext (length_rotate_board_right N _) h
  intro a b ha hb
  rw [getD_rotate_board_right N _ ha hb]
  rw [getD_rotate_board_left N s hb (by omega)]
  have hx : N - 1 - (N - 1 - a) = a := by omega
  rw [hx]

theorem rotate_left_rotate_right (N : Nat) (s : Config) (h : s.length = N * N) :
    rotate_board_left N (rotate_board_right N s) = s := by
  apply grid_ext (length_rotate_board_left N _) h
  intro a b ha hb
  rw [getD_rotate_board_left N _ ha hb]
  rw [getD_rotate_board_right N s (by omega) ha]
  have hx : N - 1 - (N - 1 - b) = b := by omega
  rw [hx]

theorem getD_rot2 (N : Nat) (s : Config) {a b : Nat} (ha : a < N) (hb : b < N) :
    (rotate_board_left N (rotate_board_left N s)).getD (a * N + b) 0 =
      s.getD ((N - 1 - a) * N + (N - 1 - b)) 0 := by
  rw [getD_rotate_board_left N _ ha hb]
  rw [getD_rotate_board_left N s (by omega) ha]

theorem getD_rot3 (N : Nat) (s : Config) {a b : Nat} (ha : a < N) (hb : b < N) :
    (rotate_board_left N (rotate_board_left N (rotate_board_left N s))).getD (a * N + b) 0 =
      s.getD (b * N + (N - 1 - a)) 0 := by
  rw [getD_rotate_board_left N _ ha hb]
  rw [getD_rot2 N s (by omega) ha]
  have hx : N - 1 - (N - 1 - b) = b := by omega
  rw [hx]

/-- Four left rotations restore the board. -/
theorem rot4_eq_self (N : Nat) (s : Config) (h : s.length = N * N) :
    rotate_board_left N (rotate_board_left N
      (rotate_board_left N (rotate_board_left N s))) = s := by
  apply grid_ext (length_rotate_board_left N _) h
  intro a b ha hb
  rw [getD_rotate_board_left N _ ha hb]
  rw [getD_rot3 N s (by omega) ha]
  have h1 : N - 1 - (N - 1 - b) = b := by omega
  rw [h1]

/-- The mirror is an involution. -/
theorem reflect_reflect_eq_self (N : Nat) (s : Config) (h : s.length = N * N) :
    reflect_board_vertically N (reflect_board_vertically N s) = s := by
  apply grid_ext (length_reflect_board_vertically N _) h
  intro a b ha hb
  rw [getD_reflect_board_vertically N _ ha hb]
  rw [getD_reflect_board_vertically N s ha (by omega)]
  have h1 : N - 1 - (N - 1 - b) = b := by omega
  rw [h1]

/-- Dihedral relation: mirroring after a left rotation equals three left
rotations after mirroring (both are the transpose). -/
theorem reflect_rot_eq_rot3_reflect (N : Nat) (s : Config) :
    reflect_board_vertically N (rotate_board_left N s) =
      rotate_board_left N (rotate_board_left N
        (rotate_board_left N (reflect_board_vertically N s))) := by
  apply grid_ext (length_reflect_board_vertically N _) (length_rotate_board_left N _)
  intro a b ha hb
  rw [getD_reflect_board_vertically N _ ha hb]
  rw [getD_rotate_board_left N s ha (by omega)]
  rw [getD_rot3 N _ ha hb]
  rw [getD_reflect_board_vertically N s hb (by omega)]
  have h1 : N - 1 - (N - 1 - b) = b := by omega
  have h2 : N - 1 - (N - 1 - a) = a := by omega
  rw [h1, h2]

theorem mem_orbitList_self (N : Nat) (s : Config) : s ∈ orbitList N s := by
  simp [orbitList]

theorem length_of_mem_orbitList {N : Nat} {s t : Config} (ht : t ∈ orbitList N s)
    (h : s.length = N * N) : t.length = N * N := by
  simp only [orbitList, List.mem_cons, List.not_mem_nil, or_false] at ht
  rcases ht with rfl | rfl | rfl | rfl | rfl | rfl | rfl | rfl
  · exact h
  all_goals first
    | exact length_rotate_board_left N _
    | exact length_reflect_board_vertically N _

theorem mem_orbitList_rot (N : Nat) (s : Config) (h : s.length = N * N) (x : Config) :
    x ∈ orbitList N (rotate_board_left N s) ↔ x ∈ orbitList N s := by
  have h4 := rot4_eq_self N s h
  have hrel := reflect_rot_eq_rot3_reflect N s
  have h4m := rot4_eq_self N (reflect_board_vertically N s)
    (length_reflect_board_vertically N s)
  simp only [orbitList, List.mem_cons, List.not_mem_nil, or_false]
  rw [h4, hrel, h4m]
  tauto

theorem mem_orbitList_reflect (N : Nat) (s : Config) (h : s.length = N * N) (x : Config) :
    x ∈ orbitList N (reflect_board_vertically N s) ↔ x ∈ orbitList N s := by
  have h2 := reflect_reflect_eq_self N s h
  simp only [orbitList, List.mem_cons, List.not_mem_nil, or_false]
  rw [h2]
  tauto

/-- Orbit membership is preserved along the orbit: the eight dihedral images of
any orbit member make up the same set. -/
theorem mem_orbitList_congr {N : Nat} {s t : Config} (ht : t ∈ orbitList N s)
    (h : s.length = N * N) (x : Config) :
    x ∈ orbitList N t ↔ x ∈ orbitList N s := by
  have hm : (reflect_board_vertically N s).length = N * N :=
    length_reflect_board_vertically N s
  have hr1 : (rotate_board_left N s).length = N * N := length_rotate_board_left N s
  have hr2 : (rotate_board_left N (rotate_board_left N s)).length = N * N :=
    length_rotate_board_left N _
  have hm1 : (rotate_board_left N (reflect_board_vertically N s)).length = N * N :=
    length_rotate_board_left N _
  have hm2 : (rotate_board_left N (rotate_board_left N
      (reflect_board_vertically N s))).length = N * N := length_rotate_board_left N _
  simp only [orbitList, List.mem_cons, List.not_mem_nil, or_false] at ht
  rcases ht with rfl | rfl | rfl | rfl | rfl | rfl | rfl | rfl
  · rfl
  · exact mem_orbitList_rot N s h x
  · rw [mem_orbitList_rot N _ hr1 x, mem_orbitList_rot N s h x]
  · rw [mem_orbitList_rot N _ hr2 x, mem_orbitList_rot N _ hr1 x, mem_orbitList_rot N s h x]
  · exact mem_orbitList_reflect N s h x
  · rw [mem_orbitList_rot N _ hm x, mem_orbitList_reflect N s h x]
  · rw [mem_orbitList_rot N _ hm1 x, mem_orbitList_rot N _ hm x,
      mem_orbitList_reflect N s h x]
  · rw [mem_orbitList_rot N _ hm2 x, mem_orbitList_rot N _ hm1 x,
      mem_orbitList_rot N _ hm x, mem_orbitList_reflect N s h x]

theorem mem_orbitList_symm {N : Nat} {s t : Config} (ht : t ∈ orbitList N s)
    (h : s.length = N * N) : s ∈ orbitList N t :=
  (mem_orbitList_congr ht h s).mpr (mem_orbitList_self N s)

theorem mem_set_add {acc : List Nat} {v w : Nat} :
    v ∈ set_add acc w ↔ v ∈ acc ∨ v = w := by
  unfold set_add
  split_ifs with h
  · constructor
    · exact Or.inl
    · rintro (hv | rfl)
      · exact hv
      · exact h
  · simp

theorem mem_foldl_set_add (g : Nat → Option Nat) (l : List Nat) (init : List Nat) (v : Nat) :
    v ∈ l.foldl (fun acc x =>
        match g x with
        | some w => set_add acc w
        | Option.none => acc) init ↔ v ∈ init ∨ ∃ x ∈ l, g x = some v := by
  induction l generalizing init with
  | nil => simp
  | cons a l ih =>
    rw [List.foldl_cons]
    rcases hga : g a with _ | w
    · simp only [hga]
      rw [ih]
      constructor
      · rintro (hv | hx)
        · exact Or.inl hv
        · rcases hx with ⟨x, hx, hgx⟩
          exact Or.inr ⟨x, List.mem_cons_of_mem a hx, hgx⟩
      · rintro (hv | ⟨x, hx, hgx⟩)
        · exact Or.inl hv
        · rcases List.mem_cons.mp hx with rfl | hx
          · rw [hga] at hgx
            cases hgx
          · exact Or.inr ⟨x, hx, hgx⟩
    · simp only [hga]
      rw [ih, mem_set_add]
      constructor
      · rintro ((hv | rfl) | ⟨x, hx, hgx⟩)
        · exact Or.inl hv
        · exact Or.inr ⟨a, List.mem_cons_self a l, hga⟩
        · exact Or.inr ⟨x, List.mem_cons_of_mem a hx, hgx⟩
      · rintro (hv | ⟨x, hx, hgx⟩)
        · exact Or.inl (Or.inl hv)
        · rcases List.mem_cons.mp hx with rfl | hx
          · rw [hga] at hgx
            exact Or.inl (Or.inr (Option.some.inj hgx).symm)
          · exact Or.inr ⟨x, hx, hgx⟩

theorem mem_get_winners {N : Nat} {s : Config} {v : Nat} :
    v ∈ get_winners N s ↔
      (∃ row, row < N ∧ row_check N s row = some v) ∨
        (∃ col, col < N ∧ col_check N s col = some v) := by
  unfold get_winners
  rw [mem_foldl_set_add, mem_foldl_set_add]
  simp only [List.mem_range, List.not_mem_nil, false_or]

theorem row_check_eq_some {N : Nat} {s : Config} {row v : Nat} (hrow : row < N) :
    row_check N s row = some v ↔ v ≠ 0 ∧ ∀ c, c < N → s.getD (row * N + c) 0 = v := by
  unfold row_check
  simp only []
  split_ifs with h0 hall
  · constructor
    · intro h
      cases h
    · rintro ⟨hv, hc⟩
      have := hc 0 (by omega)
      rw [Nat.add_zero] at this
      rw [this] at h0
      exact absurd h0 hv
  · constructor
    · intro h
      have hv : v = s.getD (row * N) 0 := (Option.some.inj h).symm
      subst hv
      refine ⟨h0, ?_⟩
      intro c hc
      rcases Nat.eq_zero_or_pos c with rfl | hcpos
      · rw [Nat.add_zero]
      · have hmem : row * N + c ∈ List.range' (row * N + 1) (N - 1) := by
          rw [List.mem_range']
          exact ⟨c - 1, by omega, by omega⟩
        have := List.all_eq_true.mp hall _ hmem
        simpa using this
    · rintro ⟨hv, hc⟩
      have h0eq : s.getD (row * N) 0 = v := by
        have := hc 0 (by omega)
        rwa [Nat.add_zero] at this
      rw [h0eq]
  · constructor
    · intro h
      cases h
    · rintro ⟨hv, hc⟩
      exfalso
      apply hall
      rw [List.all_eq_true]
      intro i hi
      rw [List.mem_range'] at hi
      obtain ⟨j, hj, rfl⟩ := hi
      have h0eq : s.getD (row * N) 0 = v := by
        have := hc 0 (by omega)
        rwa [Nat.add_zero] at this
      have hval : s.getD (row * N + 1 + 1 * j) 0 = v := by
        have := hc (1 + 1 * j) (by omega)
        rwa [← Nat.add_assoc] at this
      simp only [beq_iff_eq]
      rw [hval, h0eq]

theorem col_check_eq_some {N : Nat} {s : Config} {col v : Nat} (hcol : col < N) :
    col_check N s col = some v ↔ v ≠ 0 ∧ ∀ r, r < N → s.getD (col + r * N) 0 = v := by
  unfold col_check
  simp only []
  split_ifs with h0 hall
  · constructor
    · intro h
      cases h
    · rintro ⟨hv, hc⟩
      have := hc 0 (by omega)
      rw [Nat.zero_mul, Nat.add_zero] at this
      rw [this] at h0
      exact absurd h0 hv
  · constructor
    · intro h
      have hv : v = s.getD col 0 := (Option.some.inj h).symm
      subst hv
      refine ⟨h0, ?_⟩
      intro r hr
      rcases Nat.eq_zero_or_pos r with rfl | hrpos
      · rw [Nat.zero_mul, Nat.add_zero]
      · have hmem : r ∈ List.range' 1 (N - 1) := by
          rw [List.mem_range']
          exact ⟨r - 1, by omega, by omega⟩
        have := List.all_eq_true.mp hall _ hmem
        simpa using this
    · rintro ⟨hv, hc⟩
      have h0eq : s.getD col 0 = v := by
        have := hc 0 (by omega)
        rwa [Nat.zero_mul, Nat.add_zero] at this
      rw [h0eq]
  · constructor
    · intro h
      cases h
    · rintro ⟨hv, hc⟩
      exfalso
      apply hall
      rw [List.all_eq_true]
      intro i hi
      rw [List.mem_range'] at hi
      obtain ⟨j, hj, rfl⟩ := hi
      have h0eq : s.getD col 0 = v := by
        have := hc 0 (by omega)
        rwa [Nat.zero_mul, Nat.add_zero] at this
      have hval : s.getD (col + (1 + 1 * j) * N) 0 = v := hc (1 + 1 * j) (by omega)
      simp only [beq_iff_eq]
      rw [hval, h0eq]

theorem row_check_rot (N : Nat) (s : Config) {r v : Nat} (hr : r < N) :
    row_check N (rotate_board_left N s) r = some v ↔ col_check N s r = some v := by
  rw [row_check_eq_some hr, col_check_eq_some hr]
  apply and_congr_right
  intro _
  constructor
  · intro h i hi
    have hx := h (N - 1 - i) (by omega)
    rw [getD_rotate_board_left N s hr (by omega)] at hx
    have he : N - 1 - (N - 1 - i) = i := by omega
    rw [he] at hx
    rwa [Nat.add_comm]
  · intro h c hc
    rw [getD_rotate_board_left N s hr hc]
    have hx := h (N - 1 - c) (by omega)
    rwa [Nat.add_comm] at hx

theorem col_check_rot (N : Nat) (s : Config) {c v : Nat} (hc : c < N) :
    col_check N (rotate_board_left N s) c = some v ↔ row_check N s (N - 1 - c) = some v := by
  rw [col_check_eq_some hc, row_check_eq_some (show N - 1 - c < N by omega)]
  apply and_congr_right
  intro _
  constructor
  · intro h i hi
    have hx := h i hi
    rw [Nat.add_comm] at hx
    rwa [getD_rotate_board_left N s hi hc] at hx
  · intro h i hi
    rw [Nat.add_comm, getD_rotate_board_left N s hi hc]
    exact h i hi

theorem row_check_reflect (N : Nat) (s : Config) {r v : Nat} (hr : r < N) :
    row_check N (reflect_board_vertically N s) r = some v ↔ row_check N s r = some v := by
  rw [row_check_eq_some hr, row_check_eq_some hr]
  apply and_congr_right
  intro _
  constructor
  · intro h c hc
    have hx := h (N - 1 - c) (by omega)
    rw [getD_reflect_board_vertically N s hr (by omega)] at hx
    have he : N - 1 - (N - 1 - c) = c := by omega
    rwa [he] at hx
  · intro h c hc
    rw [getD_reflect_board_vertically N s hr hc]
    exact h (N - 1 - c) (by omega)

theorem col_check_reflect (N : Nat) (s : Config) {c v : Nat} (hc : c < N) :
    col_check N (reflect_board_vertically N s) c = some v ↔
      col_check N s (N - 1 - c) = some v := by
  rw [col_check_eq_some hc, col_check_eq_some (show N - 1 - c < N by omega)]
  apply and_congr_right
  intro _
  constructor
  · intro h i hi
    have hx := h i hi
    rw [Nat.add_comm] at hx
    rw [getD_reflect_board_vertically N s hi hc] at hx
    rwa [Nat.add_comm] at hx
  · intro h i hi
    rw [Nat.add_comm, getD_reflect_board_vertically N s hi hc, Nat.add_comm]
    exact h i hi

theorem mem_get_winners_rot (N : Nat) (s : Config) (v : Nat) :
    v ∈ get_winners N (rotate_board_left N s) ↔ v ∈ get_winners N s := by
  rw [mem_get_winners, mem_get_winners]
  constructor
  · rintro (⟨r, hr, hrc⟩ | ⟨c, hc, hcc⟩)
    · exact Or.inr ⟨r, hr, (row_check_rot N s hr).mp hrc⟩
    · exact Or.inl ⟨N - 1 - c, by omega, (col_check_rot N s hc).mp hcc⟩
  · rintro (⟨r, hr, hrc⟩ | ⟨c, hc, hcc⟩)
    · refine Or.inr ⟨N - 1 - r, by omega, ?_⟩
      rw [col_check_rot N s (show N - 1 - r < N by omega)]
      have he : N - 1 - (N - 1 - r) = r := by omega
      rwa [he]
    · exact Or.inl ⟨c, hc, (row_check_rot N s hc).mpr hcc⟩

theorem mem_get_winners_reflect (N : Nat) (s : Config) (v : Nat) :
    v ∈ get_winners N (reflect_board_vertically N s) ↔ v ∈ get_winners N s := by
  rw [mem_get_winners, mem_get_winners]
  constructor
  · rintro (⟨r, hr, hrc⟩ | ⟨c, hc, hcc⟩)
    · exact Or.inl ⟨r, hr, (row_check_reflect N s hr).mp hrc⟩
    · exact Or.inr ⟨N - 1 - c, by omega, (col_check_reflect N s hc).mp hcc⟩
  · rintro (⟨r, hr, hrc⟩ | ⟨c, hc, hcc⟩)
    · exact Or.inl ⟨r, hr, (row_check_reflect N s hr).mpr hrc⟩
    · refine Or.inr ⟨N - 1 - c, by omega, ?_⟩
      rw [col_check_reflect N s (show N - 1 - c < N by omega)]
      have he : N - 1 - (N - 1 - c) = c := by omega
      rwa [he]

/-- C6: for every configuration `s` and each of the 8 dihedral transforms `T`
(identity, the three iterated left rotations, the reflection, and the
reflection followed by the three rotations), the winner set
`get_winners (T s)` equals `get_winners s` (as sets): rotation and reflection
never create or destroy a winning line. -/
theorem get_winners_symmetry_invariant (N : Nat) (s t : Config)
    (ht : t ∈ orbitList N s) (v : Nat) :
    v ∈ get_winners N t ↔ v ∈ get_winners N s := by
  simp only [orbitList, List.mem_cons, List.not_mem_nil, or_false] at ht
  rcases ht with rfl | rfl | rfl | rfl | rfl | rfl | rfl | rfl
  · rfl
  · exact mem_get_winners_rot N s v
  · rw [mem_get_winners_rot, mem_get_winners_rot]
  · rw [mem_get_winners_rot, mem_get_winners_rot, mem_get_winners_rot]
  · exact mem_get_winners_reflect N s v
  · rw [mem_get_winners_rot, mem_get_winners_reflect]
  · rw [mem_get_winners_rot, mem_get_winners_rot, mem_get_winners_reflect]
  · rw [mem_get_winners_rot, mem_get_winners_rot, mem_get_winners_rot,
      mem_get_winners_reflect]

/-- Witness for C6 at a concrete input: the board `[1,1,2,0]` (N = 2) and its
left rotation have the same winner membership for color 1. -/
theorem get_winners_symmetry_invariant_witness :
    (rotate_board_left 2 [1, 1, 2, 0] ∈ orbitList 2 [1, 1, 2, 0]) ∧
      (1 ∈ get_winners 2 (rotate_board_left 2 [1, 1, 2, 0]) ↔
        1 ∈ get_winners 2 [1, 1, 2, 0]) :=
  ⟨by decide,
    get_winners_symmetry_invariant 2 [1, 1, 2, 0]
      (rotate_board_left 2 [1, 1, 2, 0]) (by decide) 1⟩

/-- C10: `rotate_board_left` and `rotate_board_right` are mutually inverse
permutations of an N×N board. -/
theorem rotate_left_right_inverse (N : Nat) (s : Config) (h : s.length = N * N) :
    rotate_board_right N (rotate_board_left N s) = s ∧
      rotate_board_left N (rotate_board_right N s) = s :=
  ⟨rotate_right_rotate_left N s h, rotate_left_rotate_right N s h⟩

/-- Witness for C10 on the concrete 2×2 board `[0,1,2,0]`. -/
theorem rotate_left_right_inverse_witness :
    ([0, 1, 2, 0] : Config).length = 2 * 2 ∧
      (rotate_board_right 2 (rotate_board_left 2 [0, 1, 2, 0]) = [0, 1, 2, 0] ∧
        rotate_board_left 2 (rotate_board_right 2 [0, 1, 2, 0]) = [0, 1, 2, 0]) :=
  ⟨by decide, rotate_left_right_inverse 2 [0, 1, 2, 0] (by decide)⟩

/-- C3 counterexample: on the 2×2 board `[0,1,2,0]` (row-major), at position
(r,c) = (0,0), `reflect_board_vertically` does not yield the cell of `s` at
(N−1−r, c), and `reflect_board_horizontally` does not yield the cell of `s`
at (r, N−1−c): the claim has the two reflections swapped. -/
theorem reflect_direction_counterexample :
    ¬ ((reflect_board_vertically 2 [0, 1, 2, 0]).getD (0 * 2 + 0) 0 =
        ([0, 1, 2, 0] : Config).getD ((2 - 1 - 0) * 2 + 0) 0 ∧
      (reflect_board_horizontally 2 [0, 1, 2, 0]).getD (0 * 2 + 0) 0 =
        ([0, 1, 2, 0] : Config).getD (0 * 2 + (2 - 1 - 0)) 0) := by decide

/-- C3 (amended): for in-range (r,c), `reflect_board_vertically s` has at
(r,c) the cell of `s` at (r, N−1−c) — it reverses column order within each
row — and `reflect_board_horizontally s` has at (r,c) the cell of `s` at
(N−1−r, c) — it reverses row order within each column.  (The claim as stated
attributes each behaviour to the other function.) -/
theorem reflect_direction_amended (N : Nat) (s : Config) {r c : Nat}
    (hr : r < N) (hc : c < N) :
    (reflect_board_vertically N s).getD (r * N + c) 0 =
        s.getD (r * N + (N - 1 - c)) 0 ∧
      (reflect_board_horizontally N s).getD (r * N + c) 0 =
        s.getD ((N - 1 - r) * N + c) 0 :=
  ⟨getD_reflect_board_vertically N s hr hc, getD_reflect_board_horizontally N s hr hc⟩

/-- Witness for the amended C3 at N = 2, (r,c) = (0,1), s = `[0,1,2,0]`. -/
theorem reflect_direction_amended_witness :
    ((0 : Nat) < 2 ∧ (1 : Nat) < 2) ∧
      ((reflect_board_vertically 2 [0, 1, 2, 0]).getD (0 * 2 + 1) 0 =
          ([0, 1, 2, 0] : Config).getD (0 * 2 + (2 - 1 - 1)) 0 ∧
        (reflect_board_horizontally 2 [0, 1, 2, 0]).getD (0 * 2 + 1) 0 =
          ([0, 1, 2, 0] : Config).getD ((2 - 1 - 0) * 2 + 1) 0) :=
  ⟨by decide, reflect_direction_amended 2 [0, 1, 2, 0] (by decide) (by decide)⟩

theorem mem_generate_equivalent_states {N : Nat} {s x : Config} :
    x ∈ generate_equivalent_states N s ↔ x ∈ orbitList N s := by
  unfold generate_equivalent_states
  rw [List.mem_insertionSort]
  exact List.mem_dedup

theorem generate_equivalent_states_ne_nil (N : Nat) (s : Config) :
    generate_equivalent_states N s ≠ [] :=
  List.ne_nil_of_mem (mem_generate_equivalent_states.mpr (mem_orbitList_self N s))

theorem generate_equivalent_states_sorted (N : Nat) (s : Config) :
    (generate_equivalent_states N s).Sorted (· ≤ ·) :=
  List.sorted_insertionSort _ _

theorem headD_mem {l : List Config} (h : l ≠ []) : l.headD [] ∈ l := by
  cases l with
  | nil => exact absurd rfl h
  | cons a l => exact List.mem_cons_self a l

theorem sorted_headD_le {l : List Config} (hs : l.Sorted (· ≤ ·)) {x : Config}
    (hx : x ∈ l) : l.headD [] ≤ x := by
  cases l with
  | nil => cases hx
  | cons a l =>
    rcases List.mem_cons.mp hx with rfl | hx
    · exact le_refl x
    · exact (List.sorted_cons.mp hs).1 x hx

theorem canonical_mem (N : Nat) (s : Config) : canonical N s ∈ orbitList N s :=
  mem_generate_equivalent_states.mp
    (headD_mem (generate_equivalent_states_ne_nil N s))

theorem canonical_le (N : Nat) (s : Config) {t : Config} (ht : t ∈ orbitList N s) :
    canonical N s ≤ t :=
  sorted_headD_le (generate_equivalent_states_sorted N s)
    (mem_generate_equivalent_states.mpr ht)

theorem canonical_eq_of_orbit_iff {N : Nat} {s t : Config}
    (h : ∀ x, x ∈ orbitList N s ↔ x ∈ orbitList N t) :
    canonical N s = canonical N t :=
  le_antisymm
    (canonical_le N s ((h (canonical N t)).mpr (canonical_mem N t)))
    (canonical_le N t ((h (canonical N s)).mp (canonical_mem N s)))

/-- C7: canonicalization is idempotent — with `canonical s` the first element
of `generate_equivalent_states s`, `canonical (canonical s) = canonical s` for
every configuration of N² cells; an already-canonical state canonicalizes to
itself. -/
theorem canonical_idempotent (N : Nat) (s : Config) (h : s.length = N * N) :
    canonical N (canonical N s) = canonical N s :=
  canonical_eq_of_orbit_iff (mem_orbitList_congr (canonical_mem N s) h)

/-- Witness for C7 on the concrete 2×2 board `[0,1,2,0]`. -/
theorem canonical_idempotent_witness :
    ([0, 1, 2, 0] : Config).length = 2 * 2 ∧
      canonical 2 (canonical 2 [0, 1, 2, 0]) = canonical 2 [0, 1, 2, 0] :=
  ⟨by decide, canonical_idempotent 2 [0, 1, 2, 0] (by decide)⟩

theorem length_place_tuple (N : Nat) (s : Config) (col row color : Nat) :
    (place_tuple N s col row color).length = s.length := by
  simp [place_tuple]

theorem getD_place_tuple (N : Nat) (s : Config) (col row color : Nat) {i : Nat}
    (hi : i < s.length) :
    (place_tuple N s col row color).getD i 0 =
      if i ≠ N * row + col then s.getD i 0 else color := by
  unfold place_tuple
  rw [List.getD_eq_getElem _ _ (by simpa using hi)]
  rw [List.getElem_map]
  rw [List.getElem_enum]
  dsimp only
  split_ifs with hif
  · exact (List.getD_eq_getElem s 0 hi).symm
  · rfl

/-- C9: for in-range `col`, `row` on an N×N board, `place` fails exactly when
the target cell `s[N*row+col]` is non-Empty; on success it returns a
configuration that equals `s` at every index except `N*row+col`, which holds
`color`. -/
theorem place_spec (N : Nat) (s : Config) (col row color : Nat)
    (hcol : col < N) (hrow : row < N) (h : s.length = N * N) :
    (place N s col row color = Option.none ↔ s.getD (N * row + col) 0 ≠ 0) ∧
      ∀ out, place N s col row color = some out →
        out.length = s.length ∧
          out.getD (N * row + col) 0 = color ∧
          ∀ i, i < s.length → i ≠ N * row + col → out.getD i 0 = s.getD i 0 := by
  have hidx : N * row + col < s.length := by
    rw [h]
    calc N * row + col < N * row + N := by omega
    _ = N * (row + 1) := by ring
    _ ≤ N * N := Nat.mul_le_mul_left N (by omega)
  constructor
  · unfold place
    split_ifs with h0
    · constructor
      · intro hc
        cases hc
      · intro hne
        exact absurd h0 hne
    · constructor
      · intro _
        exact h0
      · intro _
        rfl
  · intro out hout
    unfold place at hout
    split_ifs at hout with h0
    have hout' : out = place_tuple N s col row color := (Option.some.inj hout).symm
    subst hout'
    refine ⟨length_place_tuple N s col row color, ?_, ?_⟩
    · rw [getD_place_tuple N s col row color hidx]
      simp
    · intro i hi hne
      rw [getD_place_tuple N s col row color hi]
      simp [hne]

/-- Witness for C9 at N = 2, s = `[0,1,2,0]`, (col,row) = (0,0), color 1. -/
theorem place_spec_witness :
    ((0 : Nat) < 2 ∧ (0 : Nat) < 2 ∧ ([0, 1, 2, 0] : Config).length = 2 * 2) ∧
      ((place 2 [0, 1, 2, 0] 0 0 1 = Option.none ↔
          ([0, 1, 2, 0] : Config).getD (2 * 0 + 0) 0 ≠ 0) ∧
        ∀ out, place 2 [0, 1, 2, 0] 0 0 1 = some out →
          out.length = ([0, 1, 2, 0] : Config).length ∧
            out.getD (2 * 0 + 0) 0 = 1 ∧
            ∀ i, i < ([0, 1, 2, 0] : Config).length → i ≠ 2 * 0 + 0 →
              out.getD i 0 = ([0, 1, 2, 0] : Config).getD i 0) :=
  ⟨by decide, place_spec 2 [0, 1, 2, 0] 0 0 1 (by decide) (by decide) (by decide)⟩

theorem mem_allTuples {n : Nat} {s : Config} :
    s ∈ allTuples n ↔ s.length = n ∧ ∀ c ∈ s, c < 3 := by
  induction n generalizing s with
  | zero =>
    cases s with
    | nil => simp [allTuples]
    | cons c t => simp [allTuples]
  | succ n ih =>
    cases s with
    | nil =>
      simp only [allTuples, List.mem_flatMap, List.mem_map]
      constructor
      · rintro ⟨d, _, t, _, h⟩
        cases h
      · rintro ⟨h, _⟩
        simp at h
    | cons c t =>
      simp only [allTuples, List.mem_flatMap, List.mem_map]
      constructor
      · rintro ⟨d, hd, u, hu, h⟩
        obtain ⟨rfl, rfl⟩ : d = c ∧ u = t := ⟨(List.cons.inj h).1, (List.cons.inj h).2⟩
        rcases ih.mp hu with ⟨hlen, hcells⟩
        refine ⟨by simp [hlen], ?_⟩
        intro x hx
        rcases List.mem_cons.mp hx with rfl | hx
        · simp only [List.mem_cons, List.not_mem_nil, or_false] at hd
          rcases hd with rfl | rfl | rfl <;> omega
        · exact hcells x hx
      · rintro ⟨hlen, hcells⟩
        have hc : c < 3 := hcells c (List.mem_cons_self c t)
        refine ⟨c, ?_, t, ?_, rfl⟩
        · interval_cases c <;> simp
        · apply ih.mpr
          refine ⟨by simpa using hlen, ?_⟩
          intro x hx
          exact hcells x (List.mem_cons_of_mem c hx)

theorem nodup_allTuples (n : Nat) : (allTuples n).Nodup := by
  induction n with
  | zero => simp [allTuples]
  | succ n ih =>
    simp only [allTuples, List.flatMap_cons, List.flatMap_nil, List.append_nil]
    have hinj : ∀ d : Nat, Function.Injective (fun t : Config => d :: t) := by
      intro d a b h
      exact (List.cons.inj h).2
    have h0 := ih.map (hinj 0)
    have h1 := ih.map (hinj 1)
    have h2 := ih.map (hinj 2)
    have hd12 : ((allTuples n).map fun t => (1 : Nat) :: t).Disjoint
        ((allTuples n).map fun t => (2 : Nat) :: t) := by
      intro x hx hy
      rcases List.mem_map.mp hx with ⟨a, _, rfl⟩
      rcases List.mem_map.mp hy with ⟨b, _, hb⟩
      cases (List.cons.inj hb.symm).1
    have hd012 : ((allTuples n).map fun t => (0 : Nat) :: t).Disjoint
        (((allTuples n).map fun t => (1 : Nat) :: t) ++
          ((allTuples n).map fun t => (2 : Nat) :: t)) := by
      intro x hx hy
      rcases List.mem_map.mp hx with ⟨a, _, rfl⟩
      rcases List.mem_append.mp hy with hy | hy <;>
        · rcases List.mem_map.mp hy with ⟨b, _, hb⟩
          cases (List.cons.inj hb.symm).1
    exact h0.append (h1.append h2 hd12) hd012

theorem pairwise_lt_allTuples (n : Nat) : (allTuples n).Pairwise (· < ·) := by
  induction n with
  | zero => simp [allTuples]
  | succ n ih =>
    simp only [allTuples, List.flatMap_cons, List.flatMap_nil, List.append_nil]
    have hmap : ∀ d : Nat, ((allTuples n).map fun t => d :: t).Pairwise (· < ·) := by
      intro d
      rw [List.pairwise_map]
      exact ih.imp fun h => List.Lex.cons h
    have hcross : ∀ d e : Nat, d < e → ∀ x ∈ (allTuples n).map (fun t => d :: t),
        ∀ y ∈ (allTuples n).map (fun t => e :: t), x < y := by
      intro d e hde x hx y hy
      rcases List.mem_map.mp hx with ⟨a, _, rfl⟩
      rcases List.mem_map.mp hy with ⟨b, _, rfl⟩
      exact List.Lex.rel hde
    rw [List.pairwise_append]
    refine ⟨hmap 0, ?_, ?_⟩
    · rw [List.pairwise_append]
      exact ⟨hmap 1, hmap 2, hcross 1 2 (by omega)⟩
    · intro x hx y hy
      rcases List.mem_append.mp hy with hy | hy
      · exact hcross 0 1 (by omega) x hx y hy
      · exact hcross 0 2 (by omega) x hx y hy

theorem length_allTuples (n : Nat) : (allTuples n).length = 3 ^ n := by
  induction n with
  | zero => simp [allTuples]
  | succ n ih =>
    simp only [allTuples, List.flatMap_cons, List.flatMap_nil, List.append_nil,
      List.length_append, List.length_map, ih]
    ring

theorem lookupState_insert_not_mem {eqs : List Config} {h : Config} {m : StateMap}
    {k : Config} (hk : k ∉ eqs) :
    lookupState (eqs.foldl (fun acc t => (t, h) :: acc) m) k = lookupState m k := by
  induction eqs generalizing m with
  | nil => rfl
  | cons e rest ih =>
    rw [List.foldl_cons]
    have hke : k ≠ e := fun hc => hk (hc ▸ List.mem_cons_self e rest)
    have hkr : k ∉ rest := fun hc => hk (List.mem_cons_of_mem e hc)
    rw [ih hkr]
    simp [lookupState, hke]

theorem lookupState_insert_all_mem {eqs : List Config} {h : Config} {m : StateMap}
    {k : Config} (hk : k ∈ eqs) :
    lookupState (eqs.foldl (fun acc t => (t, h) :: acc) m) k = some h := by
  induction eqs generalizing m with
  | nil => cases hk
  | cons e rest ih =>
    rw [List.foldl_cons]
    by_cases hkr : k ∈ rest
    · exact ih hkr
    · rcases List.mem_cons.mp hk with rfl | hk2
      · rw [lookupState_insert_not_mem hkr]
        simp [lookupState]
      · exact absurd hk2 hkr

theorem getD_lt_three {s : Config} (hc : ∀ c ∈ s, c < 3) (i : Nat) : s.getD i 0 < 3 := by
  by_cases hi : i < s.length
  · rw [List.getD_eq_getElem s 0 hi]
    exact hc _ (s.getElem_mem hi)
  · rw [List.getD_eq_default s 0 (by omega)]
    omega

theorem cells_rotate_board_left {N : Nat} {s : Config} (hc : ∀ c ∈ s, c < 3) :
    ∀ c ∈ rotate_board_left N s, c < 3 := by
  intro x hx
  rcases mem_gridGen N _ hx with ⟨a, b, _, _, rfl⟩
  exact getD_lt_three hc _

theorem cells_reflect_board_vertically {N : Nat} {s : Config} (hc : ∀ c ∈ s, c < 3) :
    ∀ c ∈ reflect_board_vertically N s, c < 3 := by
  intro x hx
  rcases mem_gridGen N _ hx with ⟨a, b, _, _, rfl⟩
  exact getD_lt_three hc _

theorem cells_of_mem_orbitList {N : Nat} {s t : Config} (ht : t ∈ orbitList N s)
    (hc : ∀ c ∈ s, c < 3) : ∀ c ∈ t, c < 3 := by
  simp only [orbitList, List.mem_cons, List.not_mem_nil, or_false] at ht
  have hm := cells_reflect_board_vertically (N := N) hc
  rcases ht with rfl | rfl | rfl | rfl | rfl | rfl | rfl | rfl
  · exact hc
  · exact cells_rotate_board_left hc
  · exact cells_rotate_board_left (cells_rotate_board_left hc)
  · exact cells_rotate_board_left (cells_rotate_board_left (cells_rotate_board_left hc))
  · exact hm
  · exact cells_rotate_board_left hm
  · exact cells_rotate_board_left (cells_rotate_board_left hm)
  · exact cells_rotate_board_left (cells_rotate_board_left (cells_rotate_board_left hm))

theorem prep_step_inv {N : Nat} {P rest : List Config} {s : Config} {m : StateMap}
    {ps : List Config} (henum : allTuples (N * N) = P ++ s :: rest)
    (hinv : PrepInv N P m ps) :
    PrepInv N (P ++ [s]) (prepare_step N (m, ps) s).1 (prepare_step N (m, ps) s).2 := by
  obtain ⟨ha, hb, hc⟩ := hinv
  have hsmem : s ∈ allTuples (N * N) := by
    rw [henum]
    exact List.mem_append_right P (List.mem_cons_self s rest)
  obtain ⟨hslen, hscells⟩ := mem_allTuples.mp hsmem
  have hPmem : ∀ t ∈ P, t ∈ allTuples (N * N) := by
    intro t htP
    rw [henum]
    exact List.mem_append_left _ htP
  have hpw := pairwise_lt_allTuples (N * N)
  rw [henum, List.pairwise_append] at hpw
  have hPlt : ∀ t ∈ P, t < s := fun t htP =>
    hpw.2.2 t htP s (List.mem_cons_self s rest)
  have hcomplete : ∀ t, t ∈ allTuples (N * N) → t < s → t ∈ P := by
    intro t htall hts
    rw [henum] at htall
    rcases List.mem_append.mp htall with h | h
    · exact h
    · rcases List.mem_cons.mp h with rfl | h
      · exact absurd hts (lt_irrefl t)
      · exact absurd hts (asymm ((List.pairwise_cons.mp hpw.2.1).1 t h))
  unfold prepare_step
  split_ifs with hlook
  · -- s was already in the map: the whole step is a no-op
    obtain ⟨t0, ht0P, hst0⟩ := (ha s).mp hlook
    have ht0len : t0.length = N * N := (mem_allTuples.mp (hPmem t0 ht0P)).1
    refine ⟨?_, hb, ?_⟩
    · intro k
      rw [ha k]
      constructor
      · rintro ⟨t, htP, hk⟩
        exact ⟨t, List.mem_append_left _ htP, hk⟩
      · rintro ⟨t, htP, hk⟩
        rcases List.mem_append.mp htP with h | h
        · exact ⟨t, h, hk⟩
        · rcases List.mem_cons.mp h with rfl | h
          · exact ⟨t0, ht0P, (mem_orbitList_congr hst0 ht0len k).mp hk⟩
          · cases h
    · have hne : ¬ canonical N s = s := by
        intro hcan
        have ht0orb : t0 ∈ orbitList N s := mem_orbitList_symm hst0 ht0len
        have hle : canonical N s ≤ t0 := canonical_le N s ht0orb
        rw [hcan] at hle
        exact absurd (lt_of_le_of_lt hle (hPlt t0 ht0P)) (lt_irrefl s)
      rw [List.filter_append, hc]
      simp [hne]
  · -- s is new: its whole equivalence class is inserted, s is processed
    have hlookn : lookupState m s = Option.none := by
      cases hl : lookupState m s with
      | none => rfl
      | some v =>
        rw [hl] at hlook
        exact absurd rfl hlook
    have hnoorb : ¬ ∃ t ∈ P, s ∈ orbitList N t := by
      intro hex
      have := (ha s).mpr hex
      rw [hlookn] at this
      cases this
    have hcan : canonical N s = s := by
      by_contra hne
      have hcmem : canonical N s ∈ orbitList N s := canonical_mem N s
      have hcle : canonical N s ≤ s := canonical_le N s (mem_orbitList_self N s)
      have hclt : canonical N s < s := lt_of_le_of_ne hcle hne
      have hclen : (canonical N s).length = N * N := length_of_mem_orbitList hcmem hslen
      have hccells : ∀ c ∈ canonical N s, c < 3 := cells_of_mem_orbitList hcmem hscells
      have hcall : canonical N s ∈ allTuples (N * N) := mem_allTuples.mpr ⟨hclen, hccells⟩
      have hcP : canonical N s ∈ P := hcomplete _ hcall hclt
      exact hnoorb ⟨canonical N s, hcP, mem_orbitList_symm hcmem hslen⟩
    refine ⟨?_, ?_, ?_⟩
    · intro k
      by_cases hk : k ∈ generate_equivalent_states N s
      · rw [lookupState_insert_all_mem hk]
        simp only [Option.isSome_some, true_iff]
        exact ⟨s, List.mem_append_right P (List.mem_cons_self s []),
          mem_generate_equivalent_states.mp hk⟩
      · rw [lookupState_insert_not_mem hk]
        rw [ha k]
        constructor
        · rintro ⟨t, htP, hko⟩
          exact ⟨t, List.mem_append_left _ htP, hko⟩
        · rintro ⟨t, htP, hko⟩
          rcases List.mem_append.mp htP with h | h
          · exact ⟨t, h, hko⟩
          · rcases List.mem_cons.mp h with rfl | h
            · exact absurd (mem_generate_equivalent_states.mpr hko) hk
            · cases h
    · intro k v hkv
      by_cases hk : k ∈ generate_equivalent_states N s
      · rw [lookupState_insert_all_mem hk] at hkv
        have hv : v = canonical N s := (Option.some.inj hkv).symm
        have hkorb : k ∈ orbitList N s := mem_generate_equivalent_states.mp hk
        have : canonical N k = canonical N s :=
          canonical_eq_of_orbit_iff (mem_orbitList_congr hkorb hslen)
        rw [hv, this]
      · rw [lookupState_insert_not_mem hk] at hkv
        exact hb k v hkv
    · rw [List.filter_append, hc]
      simp [hcan]

theorem prep_fold_inv (N : Nat) :
    ∀ (l₂ l₁ : List Config) (m : StateMap) (ps : List Config),
      allTuples (N * N) = l₁ ++ l₂ → PrepInv N l₁ m ps →
      PrepInv N (l₁ ++ l₂) (l₂.foldl (prepare_step N) (m, ps)).1
        (l₂.foldl (prepare_step N) (m, ps)).2 := by
  intro l₂
  induction l₂ with
  | nil =>
    intro l₁ m ps henum hinv
    simpa using hinv
  | cons s rest ih =>
    intro l₁ m ps henum hinv
    have hstep := prep_step_inv henum hinv
    rcases hp : prepare_step N (m, ps) s with ⟨m', ps'⟩
    rw [hp] at hstep
    have henum' : allTuples (N * N) = (l₁ ++ [s]) ++ rest := by
      rw [henum, List.append_assoc]
      rfl
    have := ih (l₁ ++ [s]) m' ps' henum' hstep
    rw [List.foldl_cons, hp]
    rw [List.append_assoc] at this
    simpa using this

theorem prepare_inv (N : Nat) :
    PrepInv N (allTuples (N * N)) (prepare_normalized_states N) (processedStates N) := by
  have hinit : PrepInv N [] ([] : StateMap) ([] : List Config) := by
    refine ⟨?_, ?_, rfl⟩
    · intro k
      simp [lookupState]
    · intro k v hkv
      cases hkv
  have := prep_fold_inv N (allTuples (N * N)) [] [] [] (by simp) hinit
  simpa [prepare_normalized_states, processedStates, prepare_pair] using this

theorem filter_eq_singleton_length {l : List Config} {a : Config} (hnd : l.Nodup)
    (ha : a ∈ l) : (l.filter fun x => decide (x = a)).length = 1 := by
  induction l with
  | nil => cases ha
  | cons b l ih =>
    rw [List.nodup_cons] at hnd
    by_cases hab : b = a
    · subst hab
      rw [List.filter_cons_of_pos (by simp)]
      have hnil : l.filter (fun x => decide (x = b)) = [] := by
        rw [List.filter_eq_nil_iff]
        intro x hx
        simp only [decide_eq_true_eq]
        intro hxb
        exact hnd.1 (hxb ▸ hx)
      rw [hnil]
      rfl
    · rw [List.filter_cons_of_neg (by simp [hab])]
      rcases List.mem_cons.mp ha with rfl | ha2
      · exact absurd rfl hab
      · exact ih hnd.2 ha2

/-- C1: after the full-space precompute on an N×N board, every configuration
`s` of N² cells over `{0,1,2}` is mapped to the lexicographically smallest
element of its orbit under the 8 dihedral transforms, and each equivalence
class is processed exactly once (exactly one member of `s`'s orbit ever takes
the non-skip branch; a configuration already present in the map is never
reprocessed). -/
theorem prepare_normalized_states_spec (N : Nat) (s : Config)
    (hlen : s.length = N * N) (hcells : ∀ c ∈ s, c < 3) :
    lookupState (prepare_normalized_states N) s = some (canonical N s) ∧
      canonical N s ∈ orbitList N s ∧
      (∀ t ∈ orbitList N s, canonical N s ≤ t) ∧
      ((processedStates N).filter fun t => decide (t ∈ orbitList N s)).length = 1 := by
  obtain ⟨ha, hb, hc⟩ := prepare_inv N
  have hsall : s ∈ allTuples (N * N) := mem_allTuples.mpr ⟨hlen, hcells⟩
  have hsome : (lookupState (prepare_normalized_states N) s).isSome = true :=
    (ha s).mpr ⟨s, hsall, mem_orbitList_self N s⟩
  obtain ⟨v, hv⟩ := Option.isSome_iff_exists.mp hsome
  have hvcan : v = canonical N s := hb s v hv
  refine ⟨hv.trans (by rw [hvcan]), canonical_mem N s, fun t ht => canonical_le N s ht, ?_⟩
  have hcanlen : (canonical N s).length = N * N :=
    length_of_mem_orbitList (canonical_mem N s) hlen
  have hcancells : ∀ c ∈ canonical N s, c < 3 :=
    cells_of_mem_orbitList (canonical_mem N s) hcells
  have hcanall : canonical N s ∈ allTuples (N * N) :=
    mem_allTuples.mpr ⟨hcanlen, hcancells⟩
  rw [hc, List.filter_filter]
  have hcongr : ∀ x ∈ allTuples (N * N),
      (decide (x ∈ orbitList N s) && decide (canonical N x = x)) =
        decide (x = canonical N s) := by
    intro x hxall
    obtain ⟨hxlen, _⟩ := mem_allTuples.mp hxall
    by_cases hx : x = canonical N s
    · subst hx
      simp [canonical_mem N s, canonical_idempotent N s hlen]
    · rw [show decide (x = canonical N s) = false from by simp [hx]]
      rw [Bool.and_eq_false_iff]
      by_cases hxo : x ∈ orbitList N s
      · right
        simp only [decide_eq_false_iff_not]
        intro hcx
        have hce : canonical N x = canonical N s :=
          canonical_eq_of_orbit_iff (mem_orbitList_congr hxo hlen)
        exact hx (hcx ▸ hce)
      · left
        simp [hxo]
  rw [List.filter_congr hcongr]
  exact filter_eq_singleton_length (nodup_allTuples (N * N)) hcanall

/-- Witness for C1 at N = 1, s = `[0]`. -/
theorem prepare_normalized_states_spec_witness :
    (([0] : Config).length = 1 * 1 ∧ ∀ c ∈ ([0] : Config), c < 3) ∧
      (lookupState (prepare_normalized_states 1) [0] = some (canonical 1 [0]) ∧
        canonical 1 [0] ∈ orbitList 1 [0] ∧
        (∀ t ∈ orbitList 1 [0], canonical 1 [0] ≤ t) ∧
        ((processedStates 1).filter fun t => decide (t ∈ orbitList 1 [0])).length = 1) :=
  ⟨by decide, prepare_normalized_states_spec 1 [0] (by decide) (by decide)⟩

theorem digitsLoop_eq_digits {b : Nat} (hb : 2 ≤ b) :
    ∀ fuel n, n ≤ fuel → digitsLoop b fuel n = Nat.digits b n := by
  intro fuel
  induction fuel with
  | zero =>
    intro n hn
    obtain rfl : n = 0 := by omega
    rw [Nat.digits_zero]
    rfl
  | succ fuel ih =>
    intro n hn
    cases n with
    | zero =>
      rw [Nat.digits_zero]
      rfl
    | succ m =>
      rw [Nat.digits_def' (by omega) (Nat.succ_pos m)]
      show (m + 1) % b :: digitsLoop b fuel ((m + 1) / b) = _
      rw [ih ((m + 1) / b) (by
        have hdlt : (m + 1) / b < m + 1 := Nat.div_lt_self (by omega) (by omega)
        omega)]

theorem digits_pad (l : List Nat) (hl : ∀ d ∈ l, d < 3) :
    Nat.digits 3 (Nat.ofDigits 3 l) ++
      List.replicate (l.length - (Nat.digits 3 (Nat.ofDigits 3 l)).length) 0 = l := by
  induction l with
  | nil => simp
  | cons d t ih =>
    have hd : d < 3 := hl d (List.mem_cons_self d t)
    have ht : ∀ x ∈ t, x < 3 := fun x hx => hl x (List.mem_cons_of_mem d hx)
    have hcons : Nat.ofDigits 3 (d :: t) = d + 3 * Nat.ofDigits 3 t := by
      rw [Nat.ofDigits_cons]
    by_cases hm : Nat.ofDigits 3 (d :: t) = 0
    · have hd0 : d = 0 := by omega
      have ht0 : Nat.ofDigits 3 t = 0 := by omega
      rw [hm, Nat.digits_zero, List.nil_append, List.length_nil]
      have htrep := ih ht
      rw [ht0, Nat.digits_zero, List.nil_append, List.length_nil] at htrep
      simp only [List.length_cons, Nat.sub_zero] at htrep ⊢
      rw [List.replicate_succ, hd0, htrep]
    · have hpos : 0 < Nat.ofDigits 3 (d :: t) := Nat.pos_of_ne_zero hm
      rw [Nat.digits_def' (by omega : 1 < 3) hpos]
      have hmod : Nat.ofDigits 3 (d :: t) % 3 = d := by omega
      have hdiv : Nat.ofDigits 3 (d :: t) / 3 = Nat.ofDigits 3 t := by omega
      rw [hmod, hdiv, List.cons_append, List.length_cons, List.length_cons,
        Nat.succ_sub_succ]
      rw [ih ht]

/-- Serialize–deserialize identity on N²-digit base-3 states. -/
theorem number_to_base_state_to_int {N : Nat} {k : Config} (hlen : k.length = N * N)
    (hc : ∀ c ∈ k, c < 3) : number_to_base (state_to_int k) 3 (N * N) = k := by
  unfold number_to_base state_to_int
  rw [digitsLoop_eq_digits (by omega) _ _ (le_refl _)]
  have hrl : ∀ d ∈ k.reverse, d < 3 := fun d hd => hc d (List.mem_reverse.mp hd)
  have hpad := digits_pad k.reverse hrl
  rw [List.length_reverse, hlen] at hpad
  show (Nat.digits 3 (Nat.ofDigits 3 k.reverse) ++
      List.replicate (N * N - (Nat.digits 3 (Nat.ofDigits 3 k.reverse)).length) 0).reverse = k
  rw [hpad, List.reverse_reverse]

theorem char_digit_digit_char {d : Nat} (hd : d < 10) :
    char_digit (digit_char d) = some d := by
  interval_cases d <;> rfl

theorem digit_char_ne_space (d : Nat) : digit_char d ≠ ' ' := by
  unfold digit_char
  split_ifs <;> decide

theorem natToChars_no_space (n : Nat) : ∀ c ∈ natToChars n, c ≠ ' ' := by
  unfold natToChars
  split_ifs with h
  · intro c hc
    simp only [List.mem_cons, List.not_mem_nil, or_false] at hc
    subst hc
    decide
  · intro c hc
    rcases List.mem_map.mp hc with ⟨d, _, rfl⟩
    exact digit_char_ne_space d

theorem parseNatAux_digits {ds : List Nat} (hds : ∀ d ∈ ds, d < 10) :
    ∀ acc, parseNatAux (ds.map digit_char) acc =
      some (ds.foldl (fun a d => a * 10 + d) acc) := by
  induction ds with
  | nil => intro acc; rfl
  | cons d t ih =>
    intro acc
    have hd : d < 10 := hds d (List.mem_cons_self d t)
    show (match char_digit (digit_char d) with
      | some x => parseNatAux (t.map digit_char) (acc * 10 + x)
      | Option.none => Option.none) = _
    rw [char_digit_digit_char hd]
    exact ih (fun x hx => hds x (List.mem_cons_of_mem d hx)) (acc * 10 + d)

theorem foldl_digits_reverse (ds : List Nat) :
    ∀ acc, (ds.reverse).foldl (fun a d => a * 10 + d) acc =
      acc * 10 ^ ds.length + Nat.ofDigits 10 ds := by
  induction ds with
  | nil => intro acc; simp
  | cons d t ih =>
    intro acc
    rw [List.reverse_cons, List.foldl_append, ih acc]
    show (acc * 10 ^ t.length + Nat.ofDigits 10 t) * 10 + d = _
    rw [Nat.ofDigits_cons, List.length_cons, pow_succ]
    ring

theorem parseNat_natToChars (n : Nat) : parseNat (natToChars n) = some n := by
  unfold natToChars
  split_ifs with h0
  · subst h0
    rfl
  · rw [digitsLoop_eq_digits (by omega) _ _ (le_refl _)]
    have hds : ∀ d ∈ (Nat.digits 10 n).reverse, d < 10 := fun d hd =>
      Nat.digits_lt_base (by omega) (List.mem_reverse.mp hd)
    have hmap : (Nat.digits 10 n).reverse.map digit_char ≠ [] := by
      have : Nat.digits 10 n ≠ [] := Nat.digits_ne_nil_iff_ne_zero.mpr h0
      simp [this]
    unfold parseNat
    rw [if_neg hmap]
    rw [parseNatAux_digits hds 0]
    rw [foldl_digits_reverse (Nat.digits 10 n) 0]
    rw [Nat.ofDigits_digits]
    simp

theorem splitOnSpace_no_space {l : List Char} (h : ∀ c ∈ l, c ≠ ' ') :
    splitOnSpace l = [l] := by
  induction l with
  | nil => rfl
  | cons c cs ih =>
    have hc : c ≠ ' ' := h c (List.mem_cons_self c cs)
    show (if c = ' ' then [] :: splitOnSpace cs
      else match splitOnSpace cs with
        | [] => [[c]]
        | h :: t => (c :: h) :: t) = [c :: cs]
    rw [if_neg hc, ih (fun x hx => h x (List.mem_cons_of_mem c hx))]

theorem splitOnSpace_append {xs ys : List Char} (h : ∀ c ∈ xs, c ≠ ' ') :
    splitOnSpace (xs ++ ' ' :: ys) = xs :: splitOnSpace ys := by
  induction xs with
  | nil =>
    show (if ' ' = ' ' then [] :: splitOnSpace ys
      else match splitOnSpace ys with
        | [] => [[' ']]
        | h :: t => (' ' :: h) :: t) = [] :: splitOnSpace ys
    rw [if_pos rfl]
  | cons c cs ih =>
    have hc : c ≠ ' ' := h c (List.mem_cons_self c cs)
    show (if c = ' ' then [] :: splitOnSpace (cs ++ ' ' :: ys)
      else match splitOnSpace (cs ++ ' ' :: ys) with
        | [] => [[c]]
        | h :: t => (c :: h) :: t) = (c :: cs) :: splitOnSpace ys
    rw [if_neg hc, ih (fun x hx => h x (List.mem_cons_of_mem c hx))]

theorem parseLine_lineOf (kv : Config × Config) :
    parseLine (lineOf kv) = some (state_to_int kv.1, state_to_int kv.2) := by
  unfold parseLine lineOf
  rw [splitOnSpace_append (natToChars_no_space _)]
  rw [splitOnSpace_no_space (natToChars_no_space _)]
  show (match parseNat (natToChars (state_to_int kv.1)),
      parseNat (natToChars (state_to_int kv.2)) with
    | some x, some y => some (x, y)
    | _, _ => Option.none) = some (state_to_int kv.1, state_to_int kv.2)
  rw [parseNat_natToChars, parseNat_natToChars]

theorem mem_foldl_prepend {eqs : List Config} {h : Config} {m : StateMap}
    {kv : Config × Config} :
    kv ∈ eqs.foldl (fun acc t => (t, h) :: acc) m ↔
      (∃ t ∈ eqs, kv = (t, h)) ∨ kv ∈ m := by
  induction eqs generalizing m with
  | nil => simp
  | cons e rest ih =>
    rw [List.foldl_cons, ih]
    constructor
    · rintro (⟨t, ht, rfl⟩ | hm)
      · exact Or.inl ⟨t, List.mem_cons_of_mem e ht, rfl⟩
      · rcases List.mem_cons.mp hm with rfl | hm
        · exact Or.inl ⟨e, List.mem_cons_self e rest, rfl⟩
        · exact Or.inr hm
    · rintro (⟨t, ht, rfl⟩ | hm)
      · rcases List.mem_cons.mp ht with rfl | ht
        · exact Or.inr (List.mem_cons_self _ m)
        · exact Or.inl ⟨t, ht, rfl⟩
      · exact Or.inr (List.mem_cons_of_mem _ hm)

theorem prep_step_entries {N : Nat} {s : Config} {p : StateMap × List Config}
    (hslen : s.length = N * N) (hscells : ∀ c ∈ s, c < 3)
    (hp : PrepEntries N p.1) : PrepEntries N (prepare_step N p s).1 := by
  unfold prepare_step
  split_ifs with hlook
  · exact hp
  · generalize hE : generate_equivalent_states N s = E
    generalize hc0 : canonical N s = c0
    intro kv hkv
    rcases mem_foldl_prepend.mp hkv with ⟨t, ht, rfl⟩ | hkv2
    · rw [← hE] at ht
      have htorb : t ∈ orbitList N s := mem_generate_equivalent_states.mp ht
      have hcanorb : canonical N s ∈ orbitList N s := canonical_mem N s
      have h1 : t.length = N * N := length_of_mem_orbitList htorb hslen
      have h2 : ∀ c ∈ t, c < 3 := cells_of_mem_orbitList htorb hscells
      have h3 : c0.length = N * N := by
        rw [← hc0]
        exact length_of_mem_orbitList hcanorb hslen
      have h4 : ∀ c ∈ c0, c < 3 := by
        rw [← hc0]
        exact cells_of_mem_orbitList hcanorb hscells
      have h5 : c0 = canonical N t := by
        rw [← hc0]
        exact (canonical_eq_of_orbit_iff (mem_orbitList_congr htorb hslen)).symm
      exact ⟨⟨h1, h2⟩, ⟨h3, h4⟩, h5⟩
    · exact hp kv hkv2

theorem prep_fold_entries (N : Nat) :
    ∀ (l : List Config) (p : StateMap × List Config),
      (∀ s ∈ l, s.length = N * N ∧ ∀ c ∈ s, c < 3) → PrepEntries N p.1 →
      PrepEntries N (l.foldl (prepare_step N) p).1 := by
  intro l
  induction l with
  | nil => intro p _ hp; exact hp
  | cons s rest ih =>
    intro p hwf hp
    rw [List.foldl_cons]
    obtain ⟨hslen, hscells⟩ := hwf s (List.mem_cons_self s rest)
    exact ih (prepare_step N p s) (fun x hx => hwf x (List.mem_cons_of_mem s hx))
      (prep_step_entries hslen hscells hp)

theorem prep_entries (N : Nat) : PrepEntries N (prepare_normalized_states N) := by
  unfold prepare_normalized_states prepare_pair
  apply prep_fold_entries N (allTuples (N * N)) ([], [])
  · intro s hs
    exact mem_allTuples.mp hs
  · intro kv hkv
    cases hkv

theorem lookupState_none_iff {m : StateMap} {k : Config} :
    lookupState m k = Option.none ↔ ∀ kv ∈ m, kv.1 ≠ k := by
  induction m with
  | nil => simp [lookupState]
  | cons p rest ih =>
    rcases p with ⟨k1, v1⟩
    show (if k = k1 then some v1 else lookupState rest k) = Option.none ↔ _
    split_ifs with hk
    · subst hk
      constructor
      · intro h
        cases h
      · intro h
        exact absurd rfl (h (k, v1) (List.mem_cons_self _ rest))
    · rw [ih]
      constructor
      · intro h kv hkv
        rcases List.mem_cons.mp hkv with rfl | hkv
        · exact fun hc => hk hc.symm
        · exact h kv hkv
      · intro h kv hkv
        exact h kv (List.mem_cons_of_mem _ hkv)

theorem lookupState_some_mem {m : StateMap} {k v : Config}
    (h : lookupState m k = some v) : (k, v) ∈ m := by
  induction m with
  | nil => cases h
  | cons p rest ih =>
    rcases p with ⟨k1, v1⟩
    rw [show lookupState ((k1, v1) :: rest) k =
      (if k = k1 then some v1 else lookupState rest k) from rfl] at h
    split_ifs at h with hk
    · subst hk
      rw [(Option.some.inj h)]
      exact List.mem_cons_self _ rest
    · exact List.mem_cons_of_mem _ (ih h)

theorem lookupState_isSome_of_mem {m : StateMap} {k v : Config} (h : (k, v) ∈ m) :
    ∃ w, lookupState m k = some w := by
  induction m with
  | nil => cases h
  | cons p rest ih =>
    rcases p with ⟨k1, v1⟩
    show ∃ w, (if k = k1 then some v1 else lookupState rest k) = some w
    by_cases hk : k = k1
    · exact ⟨v1, if_pos hk⟩
    · rcases List.mem_cons.mp h with heq | h2
      · exact absurd (congrArg Prod.fst heq) hk
      · obtain ⟨w, hw⟩ := ih h2
        exact ⟨w, by rw [if_neg hk]; exact hw⟩

theorem load_loop_map_lineOf (N : Nat) :
    ∀ (entries : List (Config × Config)) (m0 : StateMap),
      (∀ kv ∈ entries, (kv.1.length = N * N ∧ ∀ c ∈ kv.1, c < 3) ∧
        (kv.2.length = N * N ∧ ∀ c ∈ kv.2, c < 3)) →
      load_loop N (entries.map lineOf) m0 = Except.ok (entries.reverse ++ m0) := by
  intro entries
  induction entries with
  | nil => intro m0 _; rfl
  | cons kv rest ih =>
    intro m0 hwf
    obtain ⟨⟨h1len, h1c⟩, h2len, h2c⟩ := hwf kv (List.mem_cons_self kv rest)
    rw [List.map_cons]
    show (match parseLine (lineOf kv) with
      | some p =>
        load_loop N (rest.map lineOf)
          ((number_to_base p.1 3 (N * N), number_to_base p.2 3 (N * N)) :: m0)
      | Option.none => Except.error "could not parse line") = _
    rw [parseLine_lineOf]
    show load_loop N (rest.map lineOf)
      ((number_to_base (state_to_int kv.1) 3 (N * N),
        number_to_base (state_to_int kv.2) 3 (N * N)) :: m0) = _
    rw [number_to_base_state_to_int h1len h1c, number_to_base_state_to_int h2len h2c]
    rw [ih ((kv.1, kv.2) :: m0) (fun x hx => hwf x (List.mem_cons_of_mem kv hx))]
    rw [List.reverse_cons, List.append_assoc]
    rfl

/-- C4: saving the precomputed canonical map and loading the written lines
yields a map with identical lookup semantics: for every configuration `k` in
the full `3^(N²)` space, `normalize_state` (with identity on absence) agrees
on the loaded and the original map. -/
theorem save_load_roundtrip (N : Nat) (k : Config)
    (hlen : k.length = N * N) (hc : ∀ c ∈ k, c < 3) :
    ∃ m', load_normalized_states N
        (save_normalized_states (prepare_normalized_states N)) = Except.ok m' ∧
      normalize_state m' k = normalize_state (prepare_normalized_states N) k := by
  have hent := prep_entries N
  unfold load_normalized_states save_normalized_states
  have hewf : ∀ kv ∈ (prepare_normalized_states N).filter
      fun kv => decide (kv.1 ≠ kv.2),
      (kv.1.length = N * N ∧ ∀ c ∈ kv.1, c < 3) ∧
        (kv.2.length = N * N ∧ ∀ c ∈ kv.2, c < 3) := by
    intro kv hkv
    have := hent kv (List.mem_of_mem_filter hkv)
    exact ⟨this.1, this.2.1⟩
  have hload := load_loop_map_lineOf N _ [] hewf
  rw [List.append_nil] at hload
  refine ⟨_, hload, ?_⟩
  have hmem_rev : ∀ kv, kv ∈ ((prepare_normalized_states N).filter
      fun kv => decide (kv.1 ≠ kv.2)).reverse →
      kv ∈ prepare_normalized_states N ∧ kv.1 ≠ kv.2 := by
    intro kv hkv
    have h1 := List.mem_reverse.mp hkv
    exact ⟨List.mem_of_mem_filter h1, by
      have := List.of_mem_filter h1
      rwa [decide_eq_true_eq] at this⟩
  unfold normalize_state
  cases hl : lookupState (prepare_normalized_states N) k with
  | none =>
    have hnom := lookupState_none_iff.mp hl
    have hnone : lookupState (((prepare_normalized_states N).filter
        fun kv => decide (kv.1 ≠ kv.2)).reverse) k = Option.none :=
      lookupState_none_iff.mpr fun kv hkv => hnom kv (hmem_rev kv hkv).1
    rw [hnone]
  | some v =>
    have hkv : (k, v) ∈ prepare_normalized_states N := lookupState_some_mem hl
    have hv : v = canonical N k := (hent _ hkv).2.2
    by_cases hck : canonical N k = k
    · have hnone : lookupState (((prepare_normalized_states N).filter
          fun kv => decide (kv.1 ≠ kv.2)).reverse) k = Option.none := by
        rw [lookupState_none_iff]
        intro kv hkv'
        obtain ⟨hkvm, hne⟩ := hmem_rev kv hkv'
        intro hk1
        apply hne
        have h2 : kv.2 = canonical N kv.1 := (hent _ hkvm).2.2
        rw [h2, hk1, hck]
      rw [hnone, hv, hck]
    · have hkent : (k, v) ∈ ((prepare_normalized_states N).filter
          fun kv => decide (kv.1 ≠ kv.2)).reverse := by
        rw [List.mem_reverse]
        apply List.mem_filter.mpr
        refine ⟨hkv, ?_⟩
        rw [decide_eq_true_eq]
        intro hkeq
        have hkeq' : k = v := hkeq
        exact hck ((hkeq'.trans hv).symm)
      obtain ⟨w, hw⟩ := lookupState_isSome_of_mem hkent
      have hwkm : (k, w) ∈ prepare_normalized_states N :=
        (hmem_rev _ (lookupState_some_mem hw)).1
      have hwcan : w = canonical N k := (hent _ hwkm).2.2
      rw [hw, hwcan, hv]

/-- Witness for C4 at N = 1, k = `[0]`. -/
theorem save_load_roundtrip_witness :
    (([0] : Config).length = 1 * 1 ∧ ∀ c ∈ ([0] : Config), c < 3) ∧
      ∃ m', load_normalized_states 1
          (save_normalized_states (prepare_normalized_states 1)) = Except.ok m' ∧
        normalize_state m' [0] = normalize_state (prepare_normalized_states 1) [0] :=
  ⟨by decide, save_load_roundtrip 1 [0] (by decide) (by decide)⟩

/-- C5 counterexample: with N = 1, the line `"3 0"` parses into two integers,
but the integer 3 does not fit within N² = 1 base-3 digits (its
`number_to_base` image has length 2).  `load_normalized_states` does not fail:
it succeeds and stores the oversized key. -/
theorem load_oversized_counterexample :
    1 * 1 < (number_to_base 3 3 (1 * 1)).length ∧
      (load_normalized_states 1 [['3', ' ', '0']]).toOption =
        some [(number_to_base 3 3 (1 * 1), number_to_base 0 3 (1 * 1))] := by
  decide

/-- C5 (amended): `load_normalized_states` fails at load time (aborting rather
than silently truncating) on every input line that does not parse into two
integers.  An integer that does not fit within N² base-3 digits is NOT
rejected: `number_to_base` simply returns more than N² digits and the entry is
stored under that longer key. -/
theorem load_error_on_bad_line (N : Nat) (lines : List (List Char))
    (hbad : ∃ l ∈ lines, parseLine l = Option.none) :
    ∃ e, load_normalized_states N lines = Except.error e := by
  unfold load_normalized_states
  suffices H : ∀ (ll : List (List Char)), (∃ l ∈ ll, parseLine l = Option.none) →
      ∀ m0, ∃ e, load_loop N ll m0 = Except.error e from H lines hbad []
  intro ll
  induction ll with
  | nil =>
    rintro ⟨l, hl, _⟩
    cases hl
  | cons l ls ih =>
    rintro ⟨l', hl', hbadl⟩ m0
    cases hp : parseLine l with
    | none =>
      refine ⟨"could not parse line", ?_⟩
      show (match parseLine l with
        | some kv => load_loop N ls
            ((number_to_base kv.1 3 (N * N), number_to_base kv.2 3 (N * N)) :: m0)
        | Option.none => Except.error "could not parse line") = _
      rw [hp]
    | some kv =>
      have hbadls : ∃ x ∈ ls, parseLine x = Option.none := by
        rcases List.mem_cons.mp hl' with rfl | h
        · rw [hp] at hbadl
          cases hbadl
        · exact ⟨l', h, hbadl⟩
      obtain ⟨e, he⟩ := ih hbadls
        ((number_to_base kv.1 3 (N * N), number_to_base kv.2 3 (N * N)) :: m0)
      refine ⟨e, ?_⟩
      show (match parseLine l with
        | some kv => load_loop N ls
            ((number_to_base kv.1 3 (N * N), number_to_base kv.2 3 (N * N)) :: m0)
        | Option.none => Except.error "could not parse line") = _
      rw [hp]
      exact he

/-- Witness for the amended C5: a single unparseable line aborts the load. -/
theorem load_error_on_bad_line_witness :
    (∃ l ∈ [['x']], parseLine l = Option.none) ∧
      ∃ e, load_normalized_states 1 [['x']] = Except.error e :=
  ⟨by decide, load_error_on_bad_line 1 [['x']] (by decide)⟩

theorem wfConfig_empty_state (N : Nat) : wfConfig N (empty_state N) := by
  constructor
  · exact List.length_replicate (N * N) 0
  · intro c hc
    rw [List.eq_of_mem_replicate hc]
    omega

theorem cells_enum_map {s : Config} {f : Nat × Nat → Nat}
    (hf : ∀ p ∈ s.enum, f p < 3) : ∀ c ∈ s.enum.map f, c < 3 := by
  intro c hc
  rcases List.mem_map.mp hc with ⟨p, hp, rfl⟩
  exact hf p hp

theorem wf_place_tuple {N : Nat} {s : Config} (hs : wfConfig N s) {color : Nat}
    (hcolor : color < 3) (col row : Nat) : wfConfig N (place_tuple N s col row color) := by
  constructor
  · rw [length_place_tuple]
    exact hs.1
  · apply cells_enum_map
    intro p hp
    dsimp only
    split_ifs
    · exact hs.2 p.2 (List.snd_mem_of_mem_enum hp)
    · exact hcolor

theorem wf_flip_row {N : Nat} {s : Config} (hs : wfConfig N s) (row : Nat) :
    wfConfig N (flip_row N s row) := by
  constructor
  · simp [flip_row, hs.1]
  · apply cells_enum_map
    intro p hp
    dsimp only
    split_ifs
    · omega
    · exact hs.2 p.2 (List.snd_mem_of_mem_enum hp)

theorem wf_flip_column {N : Nat} {s : Config} (hs : wfConfig N s) (col : Nat) :
    wfConfig N (flip_column N s col) := by
  constructor
  · simp [flip_column, hs.1]
  · apply cells_enum_map
    intro p hp
    dsimp only
    split_ifs
    · omega
    · exact hs.2 p.2 (List.snd_mem_of_mem_enum hp)

theorem wf_insert_top {N : Nat} {s : Config} (hs : wfConfig N s) {color : Nat}
    (hcolor : color < 3) (col : Nat) : wfConfig N (insert_top N s col color) := by
  constructor
  · simp [insert_top, hs.1]
  · apply cells_enum_map
    intro p hp
    dsimp only
    split_ifs
    · exact hs.2 p.2 (List.snd_mem_of_mem_enum hp)
    · exact hcolor
    · exact getD_lt_three hs.2 _

theorem wf_insert_bottom {N : Nat} {s : Config} (hs : wfConfig N s) {color : Nat}
    (hcolor : color < 3) (col : Nat) : wfConfig N (insert_bottom N s col color) := by
  constructor
  · simp [insert_bottom, hs.1]
  · apply cells_enum_map
    intro p hp
    dsimp only
    split_ifs
    · exact hs.2 p.2 (List.snd_mem_of_mem_enum hp)
    · exact hcolor
    · exact getD_lt_three hs.2 _

theorem mem_pyslice {s : Config} {a b x : Nat} (hx : x ∈ pyslice s a b) : x ∈ s :=
  List.mem_of_mem_drop (List.mem_of_mem_take hx)

theorem length_pyslice (s : Config) (a b : Nat) :
    (pyslice s a b).length = min (b - a) (s.length - a) := by
  simp [pyslice]

theorem wf_insert_left {N : Nat} {s : Config} (hs : wfConfig N s) {row : Nat}
    (hrow : row < N) {color : Nat} (hcolor : color < 3) :
    wfConfig N (insert_left N s row color) := by
  have hB : N * (row + 1) = N * row + N := by ring
  have hBL : N * (row + 1) ≤ N * N := Nat.mul_le_mul_left N (by omega)
  have hN : 1 ≤ N := by omega
  constructor
  · unfold insert_left
    rw [List.length_append, List.length_append, List.length_cons, length_pyslice,
      length_pyslice, List.length_drop, hs.1]
    omega
  · intro c hc
    unfold insert_left at hc
    rcases List.mem_append.mp hc with hc | hc
    · rcases List.mem_append.mp hc with hc | hc
      · exact hs.2 c (mem_pyslice hc)
      · rcases List.mem_cons.mp hc with rfl | hc
        · exact hcolor
        · exact hs.2 c (mem_pyslice hc)
    · exact hs.2 c (List.mem_of_mem_drop hc)

theorem wf_insert_right {N : Nat} {s : Config} (hs : wfConfig N s) {row : Nat}
    (hrow : row < N) {color : Nat} (hcolor : color < 3) :
    wfConfig N (insert_right N s row color) := by
  have hB : N * (row + 1) = N * row + N := by ring
  have hBL : N * (row + 1) ≤ N * N := Nat.mul_le_mul_left N (by omega)
  have hN : 1 ≤ N := by omega
  constructor
  · unfold insert_right
    rw [List.length_append, List.length_append, length_pyslice, length_pyslice,
      List.length_cons, List.length_drop, hs.1]
    omega
  · intro c hc
    unfold insert_right at hc
    rcases List.mem_append.mp hc with hc | hc
    · rcases List.mem_append.mp hc with hc | hc
      · exact hs.2 c (mem_pyslice hc)
      · exact hs.2 c (mem_pyslice hc)
    · rcases List.mem_cons.mp hc with rfl | hc
      · exact hcolor
      · exact hs.2 c (List.mem_of_mem_drop hc)

/-- Every successor produced by `generate_possible_moves` on a well-formed
board is well-formed (the default colors are 1 and 2). -/
theorem generate_possible_moves_wf {N : Nat} {s : Config} (hs : wfConfig N s) :
    ∀ mvt ∈ generate_possible_moves N s, wfConfig N mvt.2 := by
  intro mvt hm
  unfold generate_possible_moves at hm
  have hcol : ∀ color ∈ ([1, 2] : List Nat), color < 3 := by decide
  rcases List.mem_append.mp hm with hm | hm
  rotate_left
  · rcases List.mem_flatMap.mp hm with ⟨i, hi, hm2⟩
    rcases List.mem_map.mp hm2 with ⟨color, hcolor, rfl⟩
    exact wf_insert_bottom hs (hcol color hcolor) i
  rcases List.mem_append.mp hm with hm | hm
  rotate_left
  · rcases List.mem_flatMap.mp hm with ⟨i, hi, hm2⟩
    rcases List.mem_map.mp hm2 with ⟨color, hcolor, rfl⟩
    exact wf_insert_top hs (hcol color hcolor) i
  rcases List.mem_append.mp hm with hm | hm
  rotate_left
  · rcases List.mem_flatMap.mp hm with ⟨i, hi, hm2⟩
    rcases List.mem_map.mp hm2 with ⟨color, hcolor, rfl⟩
    exact wf_insert_right hs (List.mem_range.mp hi) (hcol color hcolor)
  rcases List.mem_append.mp hm with hm | hm
  rotate_left
  · rcases List.mem_flatMap.mp hm with ⟨i, hi, hm2⟩
    rcases List.mem_map.mp hm2 with ⟨color, hcolor, rfl⟩
    exact wf_insert_left hs (List.mem_range.mp hi) (hcol color hcolor)
  rcases List.mem_append.mp hm with hm | hm
  rotate_left
  · rcases List.mem_map.mp hm with ⟨i, hi, rfl⟩
    exact wf_flip_column hs i
  rcases List.mem_append.mp hm with hm | hm
  rotate_left
  · rcases List.mem_map.mp hm with ⟨i, hi, rfl⟩
    exact wf_flip_row hs i
  · rcases List.mem_flatMap.mp hm with ⟨col, hcolm, hm2⟩
    rcases List.mem_flatMap.mp hm2 with ⟨row, hrowm, hm3⟩
    rcases List.mem_flatMap.mp hm3 with ⟨color, hcolorm, hm4⟩
    by_cases hempty : s.getD (N * row + col) 0 ≠ 0
    · rw [if_pos hempty] at hm4
      cases hm4
    · rw [if_neg hempty] at hm4
      rcases List.mem_cons.mp hm4 with rfl | hm5
      · exact wf_place_tuple hs (hcol color hcolorm) col row
      · cases hm5

/-- With `N ≥ 1` there is always at least one move (e.g. the first row flip). -/
theorem generate_possible_moves_ne_nil {N : Nat} (s : Config) (hN : 1 ≤ N) :
    generate_possible_moves N s ≠ [] := by
  apply List.ne_nil_of_mem (a := (Move.fr 0, flip_row N s 0))
  unfold generate_possible_moves
  apply List.mem_append_left
  apply List.mem_append_left
  apply List.mem_append_left
  apply List.mem_append_left
  apply List.mem_append_left
  apply List.mem_append_right
  exact List.mem_map.mpr ⟨0, List.mem_range.mpr (by omega), rfl⟩

theorem lookupG_isSome_iff_mem_keys {β : Type} {g : List (Config × β)} {x : Config} :
    (lookupG g x).isSome = true ↔ x ∈ g.map Prod.fst := by
  induction g with
  | nil => simp [lookupG]
  | cons p rest ih =>
    rcases p with ⟨k, v⟩
    show (if x = k then some v else lookupG rest x).isSome = true ↔ _
    rw [List.map_cons, List.mem_cons]
    split_ifs with hk
    · simp [hk]
    · rw [ih]
      simp [hk]

theorem lookupG_eq_none_iff_not_mem_keys {β : Type} {g : List (Config × β)} {x : Config} :
    lookupG g x = Option.none ↔ x ∉ g.map Prod.fst := by
  rw [← lookupG_isSome_iff_mem_keys]
  cases lookupG g x <;> simp

theorem keys_graph_set_move (g : GraphMap) (s : Config) (mv : Move) (t : Config) :
    (graph_set_move g s mv t).map Prod.fst = g.map Prod.fst := by
  induction g with
  | nil => rfl
  | cons p rest ih =>
    rcases p with ⟨k, es⟩
    show (if k = s then _ else _ : GraphMap).map Prod.fst = _
    split_ifs with hk
    · rfl
    · rw [List.map_cons, List.map_cons, ih]

theorem lookupG_graph_set_move_ne {g : GraphMap} {s : Config} {mv : Move} {t : Config}
    {x : Config} (hx : x ≠ s) : lookupG (graph_set_move g s mv t) x = lookupG g x := by
  induction g with
  | nil => rfl
  | cons p rest ih =>
    rcases p with ⟨k, es⟩
    unfold graph_set_move
    split_ifs with hk
    · subst hk
      show (if x = k then _ else _) = (if x = k then some es else lookupG rest x)
      rw [if_neg hx, if_neg hx]
    · show (if x = k then some es else lookupG (graph_set_move rest s mv t) x) = _
      rw [show lookupG ((k, es) :: rest) x =
        (if x = k then some es else lookupG rest x) from rfl]
      split_ifs with hxk
      · rfl
      · exact ih

theorem normalize_state_wf {N : Nat} {nm : StateMap}
    (hnm : ∀ kv ∈ nm, wfConfig N kv.2) {x : Config} (hx : wfConfig N x) :
    wfConfig N (normalize_state nm x) := by
  unfold normalize_state
  cases hl : lookupState nm x with
  | none => exact hx
  | some v => exact hnm (x, v) (lookupState_some_mem hl)

theorem expand_step_graph_eq (nm : StateMap) (s : Config)
    (acc : GraphMap × List Config) (mvt : Move × Config) :
    (expand_step nm s acc mvt).1 =
      graph_set_move
        (if (lookupG acc.1 s).isSome then acc.1 else (s, some []) :: acc.1) s
        mvt.1 (normalize_state nm mvt.2) := rfl

theorem expand_step_lookup_ne (nm : StateMap) (s : Config)
    (acc : GraphMap × List Config) (mvt : Move × Config) {x : Config} (hx : x ≠ s) :
    lookupG ((expand_step nm s acc mvt).1) x = lookupG acc.1 x := by
  rw [expand_step_graph_eq, lookupG_graph_set_move_ne hx]
  split_ifs with h
  · rfl
  · show (if x = s then some (some []) else lookupG acc.1 x) = lookupG acc.1 x
    rw [if_neg hx]

theorem expand_step_mem_keys (nm : StateMap) (s : Config)
    (acc : GraphMap × List Config) (mvt : Move × Config) :
    s ∈ ((expand_step nm s acc mvt).1).map Prod.fst := by
  rw [expand_step_graph_eq, keys_graph_set_move]
  split_ifs with h
  · exact lookupG_isSome_iff_mem_keys.mp h
  · exact List.mem_cons_self s _

theorem expand_step_keys_of_mem (nm : StateMap) (s : Config)
    (acc : GraphMap × List Config) (mvt : Move × Config)
    (hs : s ∈ acc.1.map Prod.fst) :
    ((expand_step nm s acc mvt).1).map Prod.fst = acc.1.map Prod.fst := by
  rw [expand_step_graph_eq, keys_graph_set_move]
  rw [if_pos (lookupG_isSome_iff_mem_keys.mpr hs)]

theorem expand_step_keys_of_not_mem (nm : StateMap) (s : Config)
    (acc : GraphMap × List Config) (mvt : Move × Config)
    (hs : s ∉ acc.1.map Prod.fst) :
    ((expand_step nm s acc mvt).1).map Prod.fst = s :: acc.1.map Prod.fst := by
  rw [expand_step_graph_eq, keys_graph_set_move]
  have hnone : ¬ (lookupG acc.1 s).isSome = true := by
    rw [lookupG_isSome_iff_mem_keys]
    exact hs
  rw [if_neg hnone]
  rfl

theorem expand_fold_lookup_ne (nm : StateMap) (s : Config) :
    ∀ (ms : List (Move × Config)) (acc : GraphMap × List Config) (x : Config), x ≠ s →
      lookupG ((ms.foldl (expand_step nm s) acc).1) x = lookupG acc.1 x := by
  intro ms
  induction ms with
  | nil => intro acc x _; rfl
  | cons mvt rest ih =>
    intro acc x hx
    rw [List.foldl_cons, ih (expand_step nm s acc mvt) x hx,
      expand_step_lookup_ne nm s acc mvt hx]

theorem expand_fold_keys_of_mem (nm : StateMap) (s : Config) :
    ∀ (ms : List (Move × Config)) (acc : GraphMap × List Config),
      s ∈ acc.1.map Prod.fst →
      ((ms.foldl (expand_step nm s) acc).1).map Prod.fst = acc.1.map Prod.fst := by
  intro ms
  induction ms with
  | nil => intro acc _; rfl
  | cons mvt rest ih =>
    intro acc hs
    rw [List.foldl_cons, ih (expand_step nm s acc mvt)
      (expand_step_mem_keys nm s acc mvt), expand_step_keys_of_mem nm s acc mvt hs]

theorem expand_fold_keys_of_not_mem (nm : StateMap) (s : Config)
    (ms : List (Move × Config)) (acc : GraphMap × List Config)
    (hs : s ∉ acc.1.map Prod.fst) (hms : ms ≠ []) :
    ((ms.foldl (expand_step nm s) acc).1).map Prod.fst = s :: acc.1.map Prod.fst := by
  cases ms with
  | nil => exact absurd rfl hms
  | cons mvt rest =>
    rw [List.foldl_cons, expand_fold_keys_of_mem nm s rest (expand_step nm s acc mvt)
      (expand_step_mem_keys nm s acc mvt),
      expand_step_keys_of_not_mem nm s acc mvt hs]

theorem expand_fold_frontier {N : Nat} (nm : StateMap) (s : Config)
    (hnm : ∀ kv ∈ nm, wfConfig N kv.2) :
    ∀ (ms : List (Move × Config)) (acc : GraphMap × List Config),
      (∀ mvt ∈ ms, wfConfig N mvt.2) →
      acc.2.Nodup →
      (∀ x ∈ acc.2, wfConfig N x ∧ lookupG acc.1 x = Option.none) →
      s ∉ acc.2 →
      ((ms.foldl (expand_step nm s) acc).2).Nodup ∧
        (∀ x ∈ (ms.foldl (expand_step nm s) acc).2,
          wfConfig N x ∧
            lookupG ((ms.foldl (expand_step nm s) acc).1) x = Option.none) ∧
        s ∉ (ms.foldl (expand_step nm s) acc).2 := by
  intro ms
  induction ms with
  | nil =>
    intro acc _ hnd hfr hsfr
    exact ⟨hnd, hfr, hsfr⟩
  | cons mvt rest ih =>
    intro acc hwf hnd hfr hsfr
    rw [List.foldl_cons]
    have hwfmvt : wfConfig N mvt.2 := hwf mvt (List.mem_cons_self mvt rest)
    have hwfrest : ∀ x ∈ rest, wfConfig N x.2 :=
      fun x hx => hwf x (List.mem_cons_of_mem mvt hx)
    have hfreq : (expand_step nm s acc mvt).2 =
        if (lookupG ((expand_step nm s acc mvt).1)
            (normalize_state nm mvt.2)).isSome then acc.2
        else if normalize_state nm mvt.2 ∈ acc.2 then acc.2
        else acc.2 ++ [normalize_state nm mvt.2] := rfl
    have hfr2 : (expand_step nm s acc mvt).2 = acc.2 ∨
        ((expand_step nm s acc mvt).2 = acc.2 ++ [normalize_state nm mvt.2] ∧
          normalize_state nm mvt.2 ∉ acc.2 ∧
          lookupG ((expand_step nm s acc mvt).1)
            (normalize_state nm mvt.2) = Option.none) := by
      rw [hfreq]
      split_ifs with h1 h2
      · exact Or.inl rfl
      · exact Or.inl rfl
      · exact Or.inr ⟨rfl, h2, Option.not_isSome_iff_eq_none.mp h1⟩
    have hstep_old : ∀ x ∈ acc.2, wfConfig N x ∧
        lookupG ((expand_step nm s acc mvt).1) x = Option.none := by
      intro x hx
      have hxs : x ≠ s := fun hc => hsfr (hc ▸ hx)
      refine ⟨(hfr x hx).1, ?_⟩
      rw [expand_step_lookup_ne nm s acc mvt hxs]
      exact (hfr x hx).2
    rcases hfr2 with heq | ⟨heq, hnotin, hlooksn⟩
    · exact ih (expand_step nm s acc mvt) hwfrest (heq ▸ hnd)
        (fun x hx => hstep_old x (heq ▸ hx)) (heq ▸ hsfr)
    · have hwfsn : wfConfig N (normalize_state nm mvt.2) :=
        normalize_state_wf hnm hwfmvt
      have hnd' : ((expand_step nm s acc mvt).2).Nodup := by
        rw [heq, List.nodup_append]
        refine ⟨hnd, List.nodup_singleton _, ?_⟩
        intro x hx hx2
        rw [List.mem_singleton] at hx2
        exact hnotin (hx2 ▸ hx)
      have hfr' : ∀ x ∈ (expand_step nm s acc mvt).2, wfConfig N x ∧
          lookupG ((expand_step nm s acc mvt).1) x = Option.none := by
        intro x hx
        rw [heq] at hx
        rcases List.mem_append.mp hx with hx | hx
        · exact hstep_old x hx
        · rw [List.mem_singleton] at hx
          subst hx
          exact ⟨hwfsn, hlooksn⟩
      have hsfr' : s ∉ (expand_step nm s acc mvt).2 := by
        rw [heq]
        intro hc
        rcases List.mem_append.mp hc with hc | hc
        · exact hsfr hc
        · rw [List.mem_singleton] at hc
          rw [← hc] at hlooksn
          rw [lookupG_eq_none_iff_not_mem_keys] at hlooksn
          exact hlooksn (expand_step_mem_keys nm s acc mvt)
      exact ih (expand_step nm s acc mvt) hwfrest hnd' hfr' hsfr'

theorem loop_step_terminal {N : Nat} {g : GraphMap} {t : TermMap} {s : Config}
    {fr : List Config} (hinv : LoopInv N g t (s :: fr)) :
    LoopInv N ((s, Option.none) :: g) ((s, get_winners N s) :: t) fr ∨
      get_winners N s = [] := by
  by_cases hw : get_winners N s = []
  · exact Or.inr hw
  obtain ⟨hndfr, hfr, hkwf, hknd, hterm⟩ := hinv
  obtain ⟨hswf, hslook⟩ := hfr s (List.mem_cons_self s fr)
  have hsk : s ∉ g.map Prod.fst := lookupG_eq_none_iff_not_mem_keys.mp hslook
  have hsfr : s ∉ fr := (List.nodup_cons.mp hndfr).1
  refine Or.inl ⟨(List.nodup_cons.mp hndfr).2, ?_, ?_, ?_, ?_⟩
  · intro x hx
    have hxs : x ≠ s := fun hc => hsfr (hc ▸ hx)
    obtain ⟨hxwf, hxlook⟩ := hfr x (List.mem_cons_of_mem s hx)
    refine ⟨hxwf, ?_⟩
    show (if x = s then some Option.none else lookupG g x) = Option.none
    rw [if_neg hxs]
    exact hxlook
  · intro k hk
    rcases List.mem_cons.mp hk with rfl | hk
    · exact hswf
    · exact hkwf k hk
  · rw [List.map_cons, List.nodup_cons]
    exact ⟨hsk, hknd⟩
  · intro kv hkv
    rcases List.mem_cons.mp hkv with rfl | hkv
    · refine ⟨rfl, hw, hswf, ?_⟩
      show (if s = s then some Option.none else lookupG g s) = some Option.none
      rw [if_pos rfl]
    · obtain ⟨h1, h2, h3, h4⟩ := hterm kv hkv
      have hk1 : kv.1 ≠ s := by
        intro hc
        apply hsk
        apply lookupG_isSome_iff_mem_keys.mp
        rw [← hc, h4]
        rfl
      refine ⟨h1, h2, h3, ?_⟩
      show (if kv.1 = s then some Option.none else lookupG g kv.1) = some Option.none
      rw [if_neg hk1]
      exact h4

theorem loop_step_expand {N : Nat} {nm : StateMap} {g : GraphMap} {t : TermMap}
    {s : Config} {fr : List Config} (hnm : ∀ kv ∈ nm, wfConfig N kv.2)
    (hinv : LoopInv N g t (s :: fr)) :
    LoopInv N ((generate_possible_moves N s).foldl (expand_step nm s) (g, fr)).1 t
        ((generate_possible_moves N s).foldl (expand_step nm s) (g, fr)).2 ∧
      ((((generate_possible_moves N s).foldl (expand_step nm s) (g, fr)).1).map
            Prod.fst = g.map Prod.fst ∨
        (((generate_possible_moves N s).foldl (expand_step nm s) (g, fr)).1).map
            Prod.fst = s :: g.map Prod.fst) ∧
      (generate_possible_moves N s ≠ [] →
        (((generate_possible_moves N s).foldl (expand_step nm s) (g, fr)).1).map
          Prod.fst = s :: g.map Prod.fst) := by
  obtain ⟨hndfr, hfr, hkwf, hknd, hterm⟩ := hinv
  obtain ⟨hswf, hslook⟩ := hfr s (List.mem_cons_self s fr)
  have hsk : s ∉ g.map Prod.fst := lookupG_eq_none_iff_not_mem_keys.mp hslook
  have hsfr : s ∉ fr := (List.nodup_cons.mp hndfr).1
  have hmswf : ∀ mvt ∈ generate_possible_moves N s, wfConfig N mvt.2 :=
    generate_possible_moves_wf hswf
  have hfold := expand_fold_frontier nm s hnm (generate_possible_moves N s) (g, fr)
    hmswf (List.nodup_cons.mp hndfr).2
    (fun x hx => hfr x (List.mem_cons_of_mem s hx)) hsfr
  have hkeys : (((generate_possible_moves N s).foldl (expand_step nm s) (g, fr)).1).map
        Prod.fst = g.map Prod.fst ∨
      (((generate_possible_moves N s).foldl (expand_step nm s) (g, fr)).1).map
        Prod.fst = s :: g.map Prod.fst := by
    cases hms : generate_possible_moves N s with
    | nil => exact Or.inl rfl
    | cons mvt rest =>
      exact Or.inr (expand_fold_keys_of_not_mem nm s (mvt :: rest) (g, fr) hsk
        (List.cons_ne_nil mvt rest))
  have hkeyscons : generate_possible_moves N s ≠ [] →
      (((generate_possible_moves N s).foldl (expand_step nm s) (g, fr)).1).map
        Prod.fst = s :: g.map Prod.fst := fun hne =>
    expand_fold_keys_of_not_mem nm s (generate_possible_moves N s) (g, fr) hsk hne
  refine ⟨⟨hfold.1, hfold.2.1, ?_, ?_, ?_⟩, hkeys, hkeyscons⟩
  · intro k hk
    rcases hkeys with hkeq | hkeq
    · exact hkwf k (hkeq ▸ hk)
    · rw [hkeq] at hk
      rcases List.mem_cons.mp hk with rfl | hk
      · exact hswf
      · exact hkwf k hk
  · rcases hkeys with hkeq | hkeq
    · rw [hkeq]
      exact hknd
    · rw [hkeq, List.nodup_cons]
      exact ⟨hsk, hknd⟩
  · intro kv hkv
    obtain ⟨h1, h2, h3, h4⟩ := hterm kv hkv
    have hk1 : kv.1 ≠ s := by
      intro hc
      apply hsk
      apply lookupG_isSome_iff_mem_keys.mp
      rw [← hc, h4]
      rfl
    refine ⟨h1, h2, h3, ?_⟩
    rw [expand_fold_lookup_ne nm s (generate_possible_moves N s) (g, fr) kv.1 hk1]
    exact h4

theorem build_graph_loop_nil (N : Nat) (nm : StateMap) (fuel : Nat) (g : GraphMap)
    (t : TermMap) (trace : List Config) :
    build_graph_loop N nm (fuel + 1) g t trace [] = some (g, t, trace) := rfl

theorem build_graph_loop_cons_terminal (N : Nat) (nm : StateMap) (fuel : Nat)
    (g : GraphMap) (t : TermMap) (trace : List Config) (s : Config) (fr : List Config)
    (hw : get_winners N s ≠ []) :
    build_graph_loop N nm (fuel + 1) g t trace (s :: fr) =
      build_graph_loop N nm fuel ((s, Option.none) :: g) ((s, get_winners N s) :: t)
        (trace ++ [s]) fr := by
  show (if get_winners N s = [] then _ else _) = _
  rw [if_neg hw]

theorem build_graph_loop_cons_expand (N : Nat) (nm : StateMap) (fuel : Nat)
    (g : GraphMap) (t : TermMap) (trace : List Config) (s : Config) (fr : List Config)
    (hw : get_winners N s = []) :
    build_graph_loop N nm (fuel + 1) g t trace (s :: fr) =
      build_graph_loop N nm fuel
        ((generate_possible_moves N s).foldl (expand_step nm s) (g, fr)).1 t
        (trace ++ [s])
        ((generate_possible_moves N s).foldl (expand_step nm s) (g, fr)).2 := by
  show (if get_winners N s = [] then _ else _) = _
  rw [if_pos hw]

theorem build_loop_result {N : Nat} {nm : StateMap} (hnm : ∀ kv ∈ nm, wfConfig N kv.2) :
    ∀ (fuel : Nat) (g : GraphMap) (t : TermMap) (trace frontier : List Config)
      (res : GraphMap × TermMap × List Config),
      LoopInv N g t frontier →
      build_graph_loop N nm fuel g t trace frontier = some res →
      ∀ kv ∈ res.2.1, kv.2 = get_winners N kv.1 ∧ kv.2 ≠ [] ∧ wfConfig N kv.1 ∧
        lookupG res.1 kv.1 = some Option.none := by
  intro fuel
  induction fuel with
  | zero =>
    intro g t trace frontier res _ hres
    cases hres
  | succ fuel ih =>
    intro g t trace frontier res hinv hres
    cases frontier with
    | nil =>
      rw [build_graph_loop_nil] at hres
      obtain rfl : (g, t, trace) = res := Option.some.inj hres
      exact fun kv hkv => hinv.2.2.2.2 kv hkv
    | cons s fr =>
      by_cases hw : get_winners N s = []
      · rw [build_graph_loop_cons_expand N nm fuel g t trace s fr hw] at hres
        exact ih _ _ _ _ res (loop_step_expand hnm hinv).1 hres
      · rw [build_graph_loop_cons_terminal N nm fuel g t trace s fr hw] at hres
        rcases loop_step_terminal hinv with hstep | hcontra
        · exact ih _ _ _ _ res hstep hres
        · exact absurd hcontra hw

theorem nodup_append_singleton {α : Type} {l : List α} {a : α} (h : l.Nodup)
    (ha : a ∉ l) : (l ++ [a]).Nodup := by
  rw [List.nodup_append]
  refine ⟨h, List.nodup_singleton a, ?_⟩
  intro x hx hx2
  rw [List.mem_singleton] at hx2
  exact ha (hx2 ▸ hx)

theorem build_loop_terminates {N : Nat} {nm : StateMap}
    (hnm : ∀ kv ∈ nm, wfConfig N kv.2) (hN : 1 ≤ N) :
    ∀ (fuel : Nat) (g : GraphMap) (t : TermMap) (trace frontier : List Config),
      LoopInv N g t frontier → trace.Nodup →
      (∀ x ∈ trace, x ∈ g.map Prod.fst) →
      (allTuples (N * N)).length + 1 ≤ fuel + (g.map Prod.fst).length →
      ∃ res, build_graph_loop N nm fuel g t trace frontier = some res ∧
        res.2.2.Nodup := by
  intro fuel
  induction fuel with
  | zero =>
    intro g t trace frontier hinv _ _ hbound
    exfalso
    have hsub : ∀ k ∈ g.map Prod.fst, k ∈ allTuples (N * N) := by
      intro k hk
      have hwf := hinv.2.2.1 k hk
      exact mem_allTuples.mpr ⟨hwf.1, hwf.2⟩
    have hcard : (g.map Prod.fst).length ≤ (allTuples (N * N)).length := by
      have h1 : (g.map Prod.fst).toFinset.card = (g.map Prod.fst).length :=
        List.toFinset_card_of_nodup hinv.2.2.2.1
      have h2 : (g.map Prod.fst).toFinset ⊆ (allTuples (N * N)).toFinset := by
        intro x hx
        rw [List.mem_toFinset] at hx ⊢
        exact hsub x hx
      calc (g.map Prod.fst).length = (g.map Prod.fst).toFinset.card := h1.symm
        _ ≤ (allTuples (N * N)).toFinset.card := Finset.card_le_card h2
        _ ≤ (allTuples (N * N)).length := (allTuples (N * N)).toFinset_card_le
    omega
  | succ fuel ih =>
    intro g t trace frontier hinv hndtr htr hbound
    cases frontier with
    | nil => exact ⟨(g, t, trace), build_graph_loop_nil N nm fuel g t trace, hndtr⟩
    | cons s fr =>
      have hslook := (hinv.2.1 s (List.mem_cons_self s fr)).2
      have hsk : s ∉ g.map Prod.fst := lookupG_eq_none_iff_not_mem_keys.mp hslook
      have hstr : s ∉ trace := fun hc => hsk (htr s hc)
      have hndtr' : (trace ++ [s]).Nodup := nodup_append_singleton hndtr hstr
      by_cases hw : get_winners N s = []
      · rw [build_graph_loop_cons_expand N nm fuel g t trace s fr hw]
        obtain ⟨hinv', _, hkeyscons⟩ := loop_step_expand hnm hinv
        have hkeq := hkeyscons (generate_possible_moves_ne_nil s hN)
        apply ih _ _ _ _ hinv' hndtr'
        · intro x hx
          rw [hkeq]
          rcases List.mem_append.mp hx with hx | hx
          · exact List.mem_cons_of_mem s (htr x hx)
          · rw [List.mem_singleton] at hx
            exact hx ▸ List.mem_cons_self s _
        · rw [hkeq, List.length_cons]
          omega
      · rw [build_graph_loop_cons_terminal N nm fuel g t trace s fr hw]
        rcases loop_step_terminal hinv with hstep | hcontra
        · apply ih _ _ _ _ hstep hndtr'
          · intro x hx
            rw [List.map_cons]
            rcases List.mem_append.mp hx with hx | hx
            · exact List.mem_cons_of_mem _ (htr x hx)
            · rw [List.mem_singleton] at hx
              exact hx ▸ List.mem_cons_self _ _
          · rw [List.map_cons, List.length_cons]
            omega
        · exact absurd hcontra hw

theorem LoopInv_init (N : Nat) : LoopInv N [] [] [empty_state N] := by
  refine ⟨List.nodup_singleton _, ?_, ?_, List.nodup_nil, ?_⟩
  · intro x hx
    rw [List.mem_singleton] at hx
    subst hx
    exact ⟨wfConfig_empty_state N, rfl⟩
  · intro k hk
    cases hk
  · intro kv hkv
    cases hkv

/-- C2: for every N ≥ 1 and every canonicalization map (one whose stored
values are well-formed configurations), the frontier traversal terminates —
fuel `3^(N²) + 1` suffices and the loop returns a result — and no canonical
state is ever expanded more than once: the expansion trace has no
duplicates (a graph key is never re-added to the frontier). -/
theorem build_graph_terminates (N : Nat) (nm : StateMap) (hN : 1 ≤ N)
    (hnm : ∀ kv ∈ nm, wfConfig N kv.2) :
    ∃ res, build_graph N nm (3 ^ (N * N) + 1) = some res ∧ res.2.2.Nodup := by
  unfold build_graph
  apply build_loop_terminates hnm hN (3 ^ (N * N) + 1) [] [] [] [empty_state N]
    (LoopInv_init N) List.nodup_nil
  · intro x hx
    cases hx
  · rw [length_allTuples]
    simp

/-- Witness for C2 at N = 1 with the empty canonicalization map. -/
theorem build_graph_terminates_witness :
    ((1 : Nat) ≤ 1 ∧ ∀ kv ∈ ([] : StateMap), wfConfig 1 kv.2) ∧
      ∃ res, build_graph 1 [] (3 ^ (1 * 1) + 1) = some res ∧ res.2.2.Nodup :=
  ⟨⟨le_refl 1, by decide⟩, build_graph_terminates 1 [] (le_refl 1) (by decide)⟩

theorem set_add_nodup {acc : List Nat} {v : Nat} (h : acc.Nodup) :
    (set_add acc v).Nodup := by
  unfold set_add
  split_ifs with hv
  · exact h
  · exact nodup_append_singleton h hv

theorem foldl_set_add_nodup (h : Nat → Option Nat) (l : List Nat) :
    ∀ init : List Nat, init.Nodup →
      (l.foldl (fun acc x =>
        match h x with
        | some w => set_add acc w
        | Option.none => acc) init).Nodup := by
  induction l with
  | nil => intro init hi; exact hi
  | cons a rest ih =>
    intro init hi
    rw [List.foldl_cons]
    cases ha : h a with
    | none => exact ih init hi
    | some w => exact ih (set_add init w) (set_add_nodup hi)

theorem get_winners_nodup (N : Nat) (s : Config) : (get_winners N s).Nodup := by
  unfold get_winners
  apply foldl_set_add_nodup
  apply foldl_set_add_nodup
  exact List.nodup_nil

theorem get_winners_vals {N : Nat} {s : Config} (hc : ∀ c ∈ s, c < 3) :
    ∀ v ∈ get_winners N s, v = 1 ∨ v = 2 := by
  intro v hv
  rcases mem_get_winners.mp hv with ⟨row, hrow, hchk⟩ | ⟨col, hcol, hchk⟩
  · obtain ⟨hv0, hall⟩ := (row_check_eq_some hrow).mp hchk
    have hvv := hall 0 (by omega)
    have hlt : v < 3 := hvv ▸ getD_lt_three hc _
    omega
  · obtain ⟨hv0, hall⟩ := (col_check_eq_some hcol).mp hchk
    have hvv := hall 0 (by omega)
    have hlt : v < 3 := hvv ▸ getD_lt_three hc _
    omega

theorem nodup_length_le_two {l : List Nat} (hnd : l.Nodup)
    (hv : ∀ v ∈ l, v = 1 ∨ v = 2) : l.length ≤ 2 := by
  cases l with
  | nil => simp
  | cons a l1 =>
    cases l1 with
    | nil => simp
    | cons b l2 =>
      cases l2 with
      | nil => simp
      | cons c l3 =>
        exfalso
        have ha := hv a (by simp)
        have hb := hv b (by simp)
        have hcv := hv c (by simp)
        have hab : a ≠ b := by
          have := (List.nodup_cons.mp hnd).1
          intro hc2
          exact this (hc2 ▸ List.mem_cons_self b (c :: l3))
        have hac : a ≠ c := by
          have hmem := (List.nodup_cons.mp hnd).1
          intro hc2
          apply hmem
          rw [hc2]
          exact List.mem_cons_of_mem b (List.mem_cons_self c l3)
        have hbc : b ≠ c := by
          have := (List.nodup_cons.mp (List.nodup_cons.mp hnd).2).1
          intro hc2
          exact this (hc2 ▸ List.mem_cons_self c l3)
        omega

/-- C8: in any graph built by `build_graph` from the empty board (with a
canonicalization map whose values are well-formed), every entry of the
terminal table has a winner set of exactly 1 or 2 elements (never 0, never 3),
and every state recorded as terminal is mapped to the no-outgoing-moves
marker (`None`) in the graph, never to an edge map. -/
theorem build_graph_terminal_spec (N : Nat) (nm : StateMap) (fuel : Nat)
    (hnm : ∀ kv ∈ nm, wfConfig N kv.2) (res : GraphMap × TermMap × List Config)
    (hres : build_graph N nm fuel = some res) :
    ∀ kv ∈ res.2.1, (kv.2.length = 1 ∨ kv.2.length = 2) ∧
      lookupG res.1 kv.1 = some Option.none := by
  have hprops := build_loop_result hnm fuel [] [] [] [empty_state N] res
    (LoopInv_init N) hres
  intro kv hkv
  obtain ⟨h1, h2, h3, h4⟩ := hprops kv hkv
  refine ⟨?_, h4⟩
  have hnd : kv.2.Nodup := h1 ▸ get_winners_nodup N kv.1
  have hvals : ∀ v ∈ kv.2, v = 1 ∨ v = 2 := by
    rw [h1]
    exact get_winners_vals h3.2
  have hle := nodup_length_le_two hnd hvals
  have hne : kv.2.length ≠ 0 := by
    intro hc
    exact h2 (List.length_eq_zero.mp hc)
  omega

/-- Witness for C8 at N = 1, empty map, fuel 4 (the loop finishes). -/
theorem build_graph_terminal_spec_witness :
    (∀ kv ∈ ([] : StateMap), wfConfig 1 kv.2) ∧
      ∀ kv ∈ ((build_graph 1 [] 4).get (by decide)).2.1,
        (kv.2.length = 1 ∨ kv.2.length = 2) ∧
          lookupG ((build_graph 1 [] 4).get (by decide)).1 kv.1 =
            some Option.none :=
  ⟨by decide, build_graph_terminal_spec 1 [] 4 (by decide) _
    (Option.some_get (by decide)).symm⟩

end Straky
